import Mathlib

/-!
Shallow embedding of the arc-diagram layout code in
src/pydmrs/visualization/static/dmrs.js (functions prepareGraph,
nextAvailableLevel, getPathSpec, updateHighlights), together with proofs of
the layout invariants.

Node identifiers are modelled as naturals; the JS sentinel comparison
start == 0 marking a TOP link becomes start = 0.  Missing references
(undefined lookups / NaN distances in JS) are modelled with Option.
-/

/-- A raw link record as parsed from the document: from-id, to-id,
argument role and post type (dmrs.js, parseXmlDMRS / graph.links).
The JS field `end` is a Lean keyword, so it is named end_ here. -/
structure RawLink where
  start : Nat
  end_ : Nat
  rargname : String
  post : String
deriving DecidableEq, Repr

/-- The input graph: node ids in display order, plus the link list. -/
structure Graph where
  nodes : List Nat
  links : List RawLink
deriving DecidableEq, Repr

/-- The id-to-index lookup built by nodeIdx[d.id] = i (dmrs.js:163-164).
Later duplicates overwrite earlier ones, exactly as JS object assignment. -/
def nodeIdx (ids : List Nat) (x : Nat) : Option Nat :=
  ids.enum.foldl (fun acc p => if p.2 = x then some p.1 else acc) none

/-- A link after the resolution pass of prepareGraph (dmrs.js:167-179):
resolved indices, span distance and direction.  source/distance are none
for TOP links (never set in JS); target/source are none when the lookup is
undefined; distance is none when it would be NaN in JS. -/
structure LinkInfo where
  start : Nat
  source : Option Nat
  target : Option Nat
  distance : Option Nat
  dir : Int
  rargname : String
  post : String
deriving DecidableEq, Repr

/-- JS String.prototype.toUpperCase, restricted to the ASCII post-type
tags this code compares against ("H" vs "h" etc.).  Written as a map over
the character list so that it reduces in the kernel. -/
def upcase (s : String) : String :=
  ⟨s.data.map Char.toUpper⟩

/-- The per-link body of graph.links.forEach in prepareGraph
(dmrs.js:167-179). -/
def resolveLink (ids : List Nat) (l : RawLink) : LinkInfo :=
  let tgt := nodeIdx ids l.end_
  if l.start = 0 then
    -- start of 0 is TOP link: dir = 1, source and distance never set
    ⟨l.start, none, tgt, none, 1, l.rargname, l.post⟩
  else
    let src := nodeIdx ids l.start
    -- Math.abs(d.source - d.target): NaN (none) if either lookup failed
    let dist := match src, tgt with
      | some s, some t => some (max s t - min s t)
      | _, _ => none
    ⟨l.start, src, tgt, dist,
      if l.rargname = "" ∨ upcase l.post = "H" then -1 else 1,
      l.rargname, l.post⟩

/-- LaneOccupancy (JS levelIdx): for each adjacent-node gap (g, g+1), the
set of occupied levels.  JS creates one empty entry per node; only gaps
below nodes.length - 1 are ever touched. -/
def Occ : Type := Nat → Finset Int

/-- Level lvl is unoccupied on every gap of the span [lo, hi)
(the inner for-loop test of nextAvailableLevel, dmrs.js:206-211). -/
def spanFree (occ : Occ) (lo hi : Nat) (lvl : Int) : Prop :=
  ∀ i ∈ Finset.Ico lo hi, lvl ∉ occ i

instance (occ : Occ) (lo hi : Nat) (lvl : Int) : Decidable (spanFree occ lo hi lvl) :=
  Finset.decidableDforallFinset

/-- The while-loop of nextAvailableLevel (dmrs.js:204-220), with explicit
fuel: try the current candidate; on failure step by dir and retry.  With
the fuel used below the search always succeeds before fuel runs out. -/
def findLevelFuel (occ : Occ) (lo hi : Nat) (dir : Int) : Nat → Int → Int
  | 0, cur => cur
  | fuel + 1, cur =>
    if spanFree occ lo hi cur then cur
    else findLevelFuel occ lo hi dir fuel (cur + dir)

/-- Total number of occupied (gap, level) entries over the span: an upper
bound on how many candidates the while-loop can reject. -/
def totalOcc (occ : Occ) (lo hi : Nat) : Nat :=
  ∑ i in Finset.Ico lo hi, (occ i).card

/-- Mark lvl occupied on every gap of the span (dmrs.js:214-216). -/
def markSpan (occ : Occ) (lo hi : Nat) (lvl : Int) : Occ :=
  fun g => if lo ≤ g ∧ g < hi then insert lvl (occ g) else occ g

/-- nextAvailableLevel (dmrs.js:198-222): normalize the span so that
source ≤ target (the recursive swap at line 200-201 becomes min/max),
search outward from the line for the first free level, and mark it.
Returns the level and the updated occupancy. -/
def nextAvailableLevel (occ : Occ) (source target : Nat) (dir : Int) :
    Int × Occ :=
  let lo := min source target
  let hi := max source target
  let lvl := findLevelFuel occ lo hi dir (totalOcc occ lo hi + 1) dir
  (lvl, markSpan occ lo hi lvl)

/-- The mutable state of the level-assignment loop in prepareGraph:
occupancy, the two running extents, and the per-link levels (in input
order, none when not yet assigned). -/
structure LayoutState where
  occ : Occ
  maxTop : Int
  maxBot : Int
  levels : List (Option Int)

/-- Lines 186-191 of dmrs.js for one link that passed the guards: assign
the next available level at index idx and update the extents.  The JS
else-if guard on maxBottomLevel only fires when the maxTopLevel branch did
not, but dir cannot be 1 and -1 at once, so the two tests are independent. -/
def assignLink (st : LayoutState) (idx : Nat) (s t : Nat) (d : Int) :
    LayoutState :=
  let r := nextAvailableLevel st.occ s t d
  ⟨r.2,
    if d = 1 ∧ st.maxTop < r.1 then r.1 else st.maxTop,
    if d = -1 ∧ st.maxBot > r.1 then r.1 else st.maxBot,
    st.levels.set idx (some r.1)⟩

/-- The body of graph.links.forEach inside the dist loop (dmrs.js:183-192):
skip TOP links, skip links whose distance is not the current dist (a NaN
distance from a missing reference never equals dist, hence the none
fallback), otherwise assign a level. -/
def processLink (dist : Nat) (st : LayoutState) (idx : Nat)
    (l : LinkInfo) : LayoutState :=
  if l.start = 0 then st
  else
    match l.distance, l.source, l.target with
    | some dl, some s, some t =>
      if dl = dist then assignLink st idx s t l.dir else st
    | _, _, _ => st

/-- One iteration of the dist loop: process every link at this distance. -/
def processDist (infos : List (Nat × LinkInfo)) (st : LayoutState)
    (dist : Nat) : LayoutState :=
  infos.foldl (fun st p => processLink dist st p.1 p.2) st

/-- The result of prepareGraph: resolved links, final occupancy, the two
extents, and each link's assigned level (input order). -/
structure Prepared where
  infos : List LinkInfo
  occ : Occ
  maxTopLevel : Int
  maxBottomLevel : Int
  levels : List (Option Int)

/-- The empty initial layout state for a graph. -/
def initState (g : Graph) : LayoutState :=
  ⟨fun _ => ∅, 0, 0, g.links.map fun _ => none⟩

/-- prepareGraph (dmrs.js:161-195): resolve all links, then run the dist
loop for dist = 0 .. nodes.length - 1. -/
def prepareGraph (g : Graph) : Prepared :=
  let infos := g.links.map (resolveLink g.nodes)
  let fin := (List.range g.nodes.length).foldl (processDist infos.enum)
    (initState g)
  ⟨infos, fin.occ, fin.maxTop, fin.maxBot, fin.levels⟩

/-- The final layout state reached by prepareGraph's dist loop. -/
def finalState (g : Graph) : LayoutState :=
  (List.range g.nodes.length).foldl
    (processDist (g.links.map (resolveLink g.nodes)).enum) (initState g)

/-- Vertical separation between edge lanes (dmrs.js:33). -/
def level_dy : Int := 25

/-- The vertical extent of a TOP link's path (dmrs.js:230-234): y2 is one
lane beyond the relevant extent.  TOP links always have dir = 1, so this is
maxTopLevel + 1 lanes above the node line. -/
def topLinkY2 (p : Prepared) (l : LinkInfo) (y1 : Int) : Int :=
  y1 + ((if l.dir = 1 then p.maxTopLevel else p.maxBottomLevel) + 1) * level_dy

/-- The lane height of a non-TOP link's path (dmrs.js:238). -/
def linkY2 (lvl : Int) (y1 : Int) : Int :=
  y1 + (lvl.natAbs * level_dy - 5)

/-- The invariant maintained by the level-assignment loop of prepareGraph.
It records, for each link, that an assigned level is marked on every gap of
the link's span, that all nearer lanes of the same sign were blocked when
it was chosen (occupancy only grows, so this stays true), that overlapping
links never share a signed level, and that the two extents bound and are
attained by the assigned levels. -/
structure LayoutInv (infos : List LinkInfo) (st : LayoutState) : Prop where
  len : st.levels.length = infos.length
  unassigned : ∀ (i : Nat) (l : LinkInfo), infos[i]? = some l →
    (l.start = 0 ∨ l.distance = none) → st.levels[i]? = some none
  assigned : ∀ (i : Nat) (lvl : Int), st.levels[i]? = some (some lvl) →
    ∃ (l : LinkInfo) (s t k : Nat),
      infos[i]? = some l ∧ l.source = some s ∧ l.target = some t ∧
      lvl = l.dir * ((k : Int) + 1) ∧
      (∀ g ∈ Finset.Ico (min s t) (max s t), lvl ∈ st.occ g) ∧
      (∀ j : Nat, j < k →
        ¬ spanFree st.occ (min s t) (max s t) (l.dir * ((j : Int) + 1)))
  collide : ∀ (i j : Nat) (li lj : Int) (l1 l2 : LinkInfo)
    (si ti sj tj g : Nat), i ≠ j →
    st.levels[i]? = some (some li) → st.levels[j]? = some (some lj) →
    infos[i]? = some l1 → infos[j]? = some l2 →
    l1.source = some si → l1.target = some ti →
    l2.source = some sj → l2.target = some tj →
    g ∈ Finset.Ico (min si ti) (max si ti) →
    g ∈ Finset.Ico (min sj tj) (max sj tj) → li ≠ lj
  top_nonneg : 0 ≤ st.maxTop
  bot_nonpos : st.maxBot ≤ 0
  top_bound : ∀ (i : Nat) (lvl : Int) (l : LinkInfo),
    st.levels[i]? = some (some lvl) →
    infos[i]? = some l → l.dir = 1 → 1 ≤ lvl ∧ lvl ≤ st.maxTop
  bot_bound : ∀ (i : Nat) (lvl : Int) (l : LinkInfo),
    st.levels[i]? = some (some lvl) →
    infos[i]? = some l → l.dir = -1 → st.maxBot ≤ lvl ∧ lvl ≤ -1
  top_attained : st.maxTop = 0 ∨ ∃ (i : Nat) (lvl : Int) (l : LinkInfo),
    st.levels[i]? = some (some lvl) ∧
    infos[i]? = some l ∧ l.dir = 1 ∧ lvl = st.maxTop
  bot_attained : st.maxBot = 0 ∨ ∃ (i : Nat) (lvl : Int) (l : LinkInfo),
    st.levels[i]? = some (some lvl) ∧
    infos[i]? = some l ∧ l.dir = -1 ∧ lvl = st.maxBot


/-- Demo graph: two ARG/NEQ links, both spanning the gap between the two
nodes. -/
def demoTwoLinks : Graph :=
  ⟨[1, 2], [⟨1, 2, "ARG1", "NEQ"⟩, ⟨1, 2, "ARG2", "NEQ"⟩]⟩

/-- Demo graph with a TOP link (start 0) and one ordinary link. -/
def demoTop : Graph := ⟨[3, 4], [⟨0, 3, "", "H"⟩, ⟨3, 4, "ARG1", "NEQ"⟩]⟩

/-- Demo graph whose only link references the absent node id 9. -/
def demoMissing : Graph := ⟨[3, 4], [⟨3, 9, "ARG1", "NEQ"⟩]⟩

/-! ### The processing order of the dist loop -/

/-- The round of the dist loop in which prepareGraph processes a link:
none for TOP links and links with an unresolved endpoint (NaN distance),
otherwise the link's span distance (the guards at dmrs.js:184-185). -/
def procDist (l : LinkInfo) : Option Nat :=
  if l.start = 0 then none
  else
    match l.distance, l.source, l.target with
    | some dl, some _, some _ => some dl
    | _, _, _ => none

/-- The assignment performed for one selected (index, link) pair. -/
def applySel (st : LayoutState) (p : Nat × LinkInfo) : LayoutState :=
  match p.2.source, p.2.target with
  | some s, some t => assignLink st p.1 s t p.2.dir
  | _, _ => st

/-- The processing order of prepareGraph's dist loop over indexed links:
for each distance in increasing order, the links of that distance in
input order. -/
def selection (ps : List (Nat × LinkInfo)) (n : Nat) :
    List (Nat × LinkInfo) :=
  (List.range n).flatMap
    (fun dist => ps.filter (fun p => decide (procDist p.2 = some dist)))

/-- The ordering in which the dist loop handles links: strictly increasing
span distance, or equal distance and increasing input position. -/
def selBefore (p q : Nat × LinkInfo) : Prop :=
  (procDist p.2).getD 0 < (procDist q.2).getD 0 ∨
    ((procDist p.2).getD 0 = (procDist q.2).getD 0 ∧ p.1 < q.1)

/-! ### Highlight propagation (updateHighlights, dmrs.js:262-327) -/

/-- One step of the label-set expansion pass over a single link
(dmrs.js:306-315): for an EQ link with exactly one endpoint in the set,
add the other endpoint. -/
def eqStep (s : Finset Nat) (l : RawLink) : Finset Nat :=
  if l.post = "EQ" then
    if l.start ∈ s ∧ l.end_ ∉ s then insert l.end_ s
    else if l.end_ ∈ s ∧ l.start ∉ s then insert l.start s
    else s
  else s

/-- One full pass of the while-loop body of updateHighlights
(dmrs.js:306-316): scan every link once, expanding the label set in
place. -/
def passOnce (links : List RawLink) (s : Finset Nat) : Finset Nat :=
  links.foldl eqStep s

/-- The initial label set (dmrs.js:285-292): both endpoints of every EQ
link incident to the selected node nid. -/
def initLabelSet (links : List RawLink) (nid : Nat) : Finset Nat :=
  links.foldl
    (fun s l =>
      if l.post = "EQ" ∧ (l.start = nid ∨ l.end_ = nid)
      then insert l.start (insert l.end_ s) else s) ∅

/-- All node ids mentioned by the link list (used only to bound the number
of expansion passes: each pass that is not yet at the fixed point adds at
least one id from this set). -/
def idSet : List RawLink → Finset Nat
  | [] => ∅
  | l :: ls => insert l.start (insert l.end_ (idSet ls))

/-- The while (labelAdded) loop (dmrs.js:303-317): repeat whole passes
until one adds no new member.  The fuel below always reaches the fixed
point. -/
def labelFix (links : List RawLink) : Nat → Finset Nat → Finset Nat
  | 0, s => s
  | n + 1, s =>
    let s2 := passOnce links s
    if s2 = s then s else labelFix links n s2

/-- The label set computed by updateHighlights for the selected node. -/
def labelSet (links : List RawLink) (nid : Nat) : Finset Nat :=
  labelFix links ((idSet links).card + 1) (initLabelSet links nid)

/-- The outbound set (dmrs.js:271-277): ends of links with truthy (i.e.
nonempty) rargname starting at the selected node. -/
def outSet (links : List RawLink) (nid : Nat) : Finset Nat :=
  links.foldl
    (fun s l =>
      if ¬ l.rargname = "" ∧ l.start = nid then insert l.end_ s else s) ∅

/-- The scope set (dmrs.js:293-301): ends of H/HEQ links starting at the
selected node (an incoming H/HEQ link highlights the link but adds no
node). -/
def scopeSet (links : List RawLink) (nid : Nat) : Finset Nat :=
  links.foldl
    (fun s l =>
      if l.start = nid ∧ (l.post = "H" ∨ l.post = "HEQ")
      then insert l.end_ s else s) ∅

/-- Undirected EQ-adjacency between node ids induced by the link list. -/
def eqAdj (links : List RawLink) (a b : Nat) : Prop :=
  ∃ l ∈ links, l.post = "EQ" ∧
    ((l.start = a ∧ l.end_ = b) ∨ (l.start = b ∧ l.end_ = a))

/-! ### The level search: termination bound and minimality -/

theorem findLevelFuel_succ (occ : Occ) (lo hi : Nat) (dir : Int)
    (fuel : Nat) (cur : Int) :
    findLevelFuel occ lo hi dir (fuel + 1) cur =
      if spanFree occ lo hi cur then cur
      else findLevelFuel occ lo hi dir fuel (cur + dir) := rfl

/-- Characterization of the fuelled while-loop: if some candidate within
fuel steps is free, the loop returns the first free candidate. -/
theorem findLevelFuel_spec (occ : Occ) (lo hi : Nat) (dir : Int)
    (fuel : Nat) :
    ∀ cur : Int, (∃ j : Nat, j < fuel ∧ spanFree occ lo hi (cur + dir * j)) →
      ∃ j : Nat, j < fuel ∧
        findLevelFuel occ lo hi dir fuel cur = cur + dir * j ∧
        spanFree occ lo hi (cur + dir * j) ∧
        ∀ j' : Nat, j' < j → ¬ spanFree occ lo hi (cur + dir * j') := by
  induction fuel with
  | zero => intro cur h; obtain ⟨j, hj, _⟩ := h; omega
  | succ f ih =>
    intro cur h
    by_cases hc : spanFree occ lo hi cur
    · exact ⟨0, by omega, by simp [findLevelFuel_succ, hc],
        by simpa using hc, fun j' hj' => absurd hj' (by omega)⟩
    · obtain ⟨j, hj, hfree⟩ := h
      have hj0 : j ≠ 0 := by
        rintro rfl
        exact hc (by simpa using hfree)
      obtain ⟨j1, rfl⟩ := Nat.exists_eq_succ_of_ne_zero hj0
      have hfree1 : spanFree occ lo hi (cur + dir + dir * j1) := by
        have e : cur + dir * ((j1 : Int) + 1) = cur + dir + dir * j1 := by ring
        rw [Nat.cast_succ] at hfree
        rwa [e] at hfree
      obtain ⟨j2, hj2, heq, hfree2, hmin⟩ :=
        ih (cur + dir) ⟨j1, by omega, hfree1⟩
      refine ⟨j2 + 1, by omega, ?_, ?_, ?_⟩
      · rw [findLevelFuel_succ, if_neg hc, heq]
        push_cast
        ring
      · have e : cur + dir * ((j2 : Int) + 1) = cur + dir + dir * j2 := by ring
        rw [Nat.cast_succ, e]
        exact hfree2
      · intro j' hj'
        cases j' with
        | zero => simpa using hc
        | succ j3 =>
          have e : cur + dir * ((j3 : Nat) + 1 : Nat) = cur + dir + dir * j3 := by
            push_cast
            ring
          rw [e]
          exact hmin j3 (by omega)

/-- Pigeonhole: among the first totalOcc + 1 candidates of either sign,
at least one level is free on the whole span. -/
theorem exists_free_level (occ : Occ) (lo hi : Nat) (dir : Int)
    (hd : dir ≠ 0) :
    ∃ k : Nat, k ≤ totalOcc occ lo hi ∧ spanFree occ lo hi (dir * (k + 1)) := by
  by_contra hcon
  push_neg at hcon
  have hmem : ∀ k ∈ Finset.range (totalOcc occ lo hi + 1),
      dir * ((k : Int) + 1) ∈ (Finset.Ico lo hi).biUnion occ := by
    intro k hk
    have hk' : k ≤ totalOcc occ lo hi := by
      have := Finset.mem_range.1 hk
      omega
    have hocc := hcon k hk'
    rw [spanFree] at hocc
    push_neg at hocc
    obtain ⟨i, hi_mem, hin⟩ := hocc
    exact Finset.mem_biUnion.2 ⟨i, hi_mem, hin⟩
  have hinj : Set.InjOn (fun k : Nat => dir * ((k : Int) + 1))
      (Finset.range (totalOcc occ lo hi + 1)) := by
    intro a _ b _ hab
    simp only at hab
    have h2 := mul_left_cancel₀ hd hab
    have h3 : (a : Int) = b := by omega
    exact_mod_cast h3
  have hcard : (Finset.range (totalOcc occ lo hi + 1)).card ≤
      ((Finset.Ico lo hi).biUnion occ).card :=
    Finset.card_le_card_of_injOn _ hmem hinj
  have hle : ((Finset.Ico lo hi).biUnion occ).card ≤
      ∑ i in Finset.Ico lo hi, (occ i).card :=
    Finset.card_biUnion_le
  rw [Finset.card_range] at hcard
  have hsum : totalOcc occ lo hi = ∑ i in Finset.Ico lo hi, (occ i).card := rfl
  omega

/-- Full specification of nextAvailableLevel: the returned level is the
minimal-magnitude free level of sign dir, and the returned occupancy marks
it on every gap of the span. -/
theorem nextAvailableLevel_spec (occ : Occ) (s t : Nat) (dir : Int)
    (hd : dir = 1 ∨ dir = -1) :
    ∃ k : Nat,
      (nextAvailableLevel occ s t dir).1 = dir * (k + 1) ∧
      spanFree occ (min s t) (max s t) (dir * (k + 1)) ∧
      (∀ j : Nat, j < k → ¬ spanFree occ (min s t) (max s t) (dir * (j + 1))) ∧
      (nextAvailableLevel occ s t dir).2 =
        markSpan occ (min s t) (max s t) (dir * (k + 1)) := by
  have hd0 : dir ≠ 0 := by rcases hd with h | h <;> simp [h]
  obtain ⟨k0, hk0, hfree0⟩ :=
    exists_free_level occ (min s t) (max s t) dir hd0
  have hstart : ∃ j : Nat, j < totalOcc occ (min s t) (max s t) + 1 ∧
      spanFree occ (min s t) (max s t) (dir + dir * j) := by
    refine ⟨k0, by omega, ?_⟩
    have e : dir + dir * (k0 : Int) = dir * ((k0 : Int) + 1) := by ring
    rwa [e]
  obtain ⟨j, hj, heq, hfree, hmin⟩ :=
    findLevelFuel_spec occ (min s t) (max s t) dir
      (totalOcc occ (min s t) (max s t) + 1) dir hstart
  have elvl : dir + dir * (j : Int) = dir * ((j : Int) + 1) := by ring
  refine ⟨j, ?_, ?_, ?_, ?_⟩
  · show findLevelFuel occ (min s t) (max s t) dir
      (totalOcc occ (min s t) (max s t) + 1) dir = dir * ((j : Int) + 1)
    rw [heq, elvl]
  · rwa [elvl] at hfree
  · intro j' hj'
    have e2 : dir * ((j' : Int) + 1) = dir + dir * j' := by ring
    rw [e2]
    exact hmin j' hj'
  · show markSpan occ (min s t) (max s t)
        (findLevelFuel occ (min s t) (max s t) dir
          (totalOcc occ (min s t) (max s t) + 1) dir) = _
    rw [heq, elvl]

/-! ### Small facts about marking and monotone occupancy growth -/

theorem markSpan_subset (occ : Occ) (lo hi : Nat) (lvl : Int) (g : Nat) :
    occ g ⊆ markSpan occ lo hi lvl g := by
  unfold markSpan
  split
  · exact Finset.subset_insert _ _
  · exact Finset.Subset.refl _

theorem markSpan_mem (occ : Occ) (lo hi : Nat) (lvl : Int) (g : Nat)
    (hg : g ∈ Finset.Ico lo hi) : lvl ∈ markSpan occ lo hi lvl g := by
  rw [Finset.mem_Ico] at hg
  unfold markSpan
  rw [if_pos hg]
  exact Finset.mem_insert_self _ _

theorem spanFree_anti {occ occ' : Occ} (hsub : ∀ g, occ g ⊆ occ' g)
    (lo hi : Nat) (lvl : Int) (h : spanFree occ' lo hi lvl) :
    spanFree occ lo hi lvl :=
  fun i hi2 hmem => h i hi2 (hsub i hmem)

theorem nextAvailableLevel_snd (occ : Occ) (s t : Nat) (dir : Int) :
    (nextAvailableLevel occ s t dir).2 =
      markSpan occ (min s t) (max s t) (nextAvailableLevel occ s t dir).1 := rfl

theorem assignLink_occ (st : LayoutState) (idx : Nat) (s t : Nat) (d : Int) :
    (assignLink st idx s t d).occ = (nextAvailableLevel st.occ s t d).2 := rfl

theorem assignLink_maxTop (st : LayoutState) (idx : Nat) (s t : Nat) (d : Int) :
    (assignLink st idx s t d).maxTop =
      if d = 1 ∧ st.maxTop < (nextAvailableLevel st.occ s t d).1
      then (nextAvailableLevel st.occ s t d).1 else st.maxTop := rfl

theorem assignLink_maxBot (st : LayoutState) (idx : Nat) (s t : Nat) (d : Int) :
    (assignLink st idx s t d).maxBot =
      if d = -1 ∧ st.maxBot > (nextAvailableLevel st.occ s t d).1
      then (nextAvailableLevel st.occ s t d).1 else st.maxBot := rfl

theorem assignLink_levels (st : LayoutState) (idx : Nat) (s t : Nat) (d : Int) :
    (assignLink st idx s t d).levels =
      st.levels.set idx (some (nextAvailableLevel st.occ s t d).1) := rfl

/-- The direction computed by resolveLink is always 1 or -1. -/
theorem resolveLink_dir (ids : List Nat) (l : RawLink) :
    (resolveLink ids l).dir = 1 ∨ (resolveLink ids l).dir = -1 := by
  unfold resolveLink
  by_cases h : l.start = 0
  · simp [h]
  · by_cases h2 : l.rargname = "" ∨ upcase l.post = "H" <;> simp [h, h2]

/-! ### The layout invariant -/

/-- One assignment preserves the layout invariant. -/
theorem assignLink_inv (infos : List LinkInfo) (st : LayoutState)
    (idx : Nat) (l : LinkInfo) (s t : Nat)
    (hmem : infos[idx]? = some l)
    (hs : l.source = some s) (ht : l.target = some t)
    (hstart : ¬ l.start = 0) (hdl : l.distance ≠ none)
    (hdir : l.dir = 1 ∨ l.dir = -1)
    (hinv : LayoutInv infos st) :
    LayoutInv infos (assignLink st idx s t l.dir) := by
  obtain ⟨k, hlvl, hfree, hmin, hocc2⟩ := nextAvailableLevel_spec st.occ s t l.dir hdir
  set r1 := (nextAvailableLevel st.occ s t l.dir).1 with hr1
  rw [← hlvl] at hfree
  have hidx_lt : idx < infos.length := by
    rcases List.getElem?_eq_some.1 hmem with ⟨h, _⟩
    exact h
  have hidx_lt' : idx < st.levels.length := by rw [hinv.len]; exact hidx_lt
  have hsub : ∀ g, st.occ g ⊆ (assignLink st idx s t l.dir).occ g := by
    intro g
    rw [assignLink_occ, nextAvailableLevel_snd]
    exact markSpan_subset _ _ _ _ _
  have hlev_idx : (assignLink st idx s t l.dir).levels[idx]? = some (some r1) := by
    rw [assignLink_levels]
    exact List.getElem?_set_eq_of_lt _ hidx_lt'
  have hlev_ne : ∀ i, i ≠ idx →
      (assignLink st idx s t l.dir).levels[i]? = st.levels[i]? := by
    intro i hne
    rw [assignLink_levels]
    exact List.getElem?_set_ne (fun h => hne h.symm)
  have hmt_ge : st.maxTop ≤ (assignLink st idx s t l.dir).maxTop := by
    rw [assignLink_maxTop]
    split
    · omega
    · omega
  have hmb_le : (assignLink st idx s t l.dir).maxBot ≤ st.maxBot := by
    rw [assignLink_maxBot]
    split
    · omega
    · omega
  -- the new level is marked on every gap of the new link's span
  have hmark : ∀ g ∈ Finset.Ico (min s t) (max s t),
      r1 ∈ (assignLink st idx s t l.dir).occ g := by
    intro g hg
    rw [assignLink_occ, nextAvailableLevel_snd]
    exact markSpan_mem _ _ _ _ _ hg
  refine ⟨?_, ?_, ?_, ?_, ?_, ?_, ?_, ?_, ?_, ?_⟩
  · rw [assignLink_levels, List.length_set, hinv.len]
  · -- unassigned
    intro i li hi hskip
    by_cases hii : i = idx
    · subst hii
      rw [hmem] at hi
      cases hi
      rcases hskip with h | h
      · exact absurd h hstart
      · exact absurd h hdl
    · rw [hlev_ne i hii]
      exact hinv.unassigned i li hi hskip
  · -- assigned
    intro i lvl hi
    by_cases hii : i = idx
    · subst hii
      rw [hlev_idx] at hi
      cases hi
      refine ⟨l, s, t, k, hmem, hs, ht, hlvl, hmark, ?_⟩
      intro j hj hfree'
      exact hmin j hj (spanFree_anti hsub _ _ _ hfree')
    · rw [hlev_ne i hii] at hi
      obtain ⟨l0, s0, t0, k0, h1, h2, h3, h4, h5, h6⟩ := hinv.assigned i lvl hi
      refine ⟨l0, s0, t0, k0, h1, h2, h3, h4, ?_, ?_⟩
      · intro g hg
        exact hsub g (h5 g hg)
      · intro j hj hfree'
        exact h6 j hj (spanFree_anti hsub _ _ _ hfree')
  · -- collide
    intro i j li lj l1 l2 si ti sj tj g hne hi hj hl1 hl2 hs1 ht1 hs2 ht2 hg1 hg2
    by_cases hii : i = idx
    · subst hii
      -- the new link: its level was free on its span before marking
      rw [hlev_idx] at hi
      cases hi
      rw [hmem] at hl1
      cases hl1
      rw [hs] at hs1
      cases hs1
      rw [ht] at ht1
      cases ht1
      have hjold : st.levels[j]? = some (some lj) := by
        rw [← hlev_ne j (fun h => hne h.symm)]
        exact hj
      obtain ⟨l2', s2', t2', k2, hl2', hs2', ht2', _, hmark2, _⟩ :=
        hinv.assigned j lj hjold
      rw [hl2] at hl2'
      cases hl2'
      rw [hs2] at hs2'
      cases hs2'
      rw [ht2] at ht2'
      cases ht2'
      intro habs
      subst habs
      exact hfree g hg1 (hmark2 g hg2)
    · by_cases hjj : j = idx
      · subst hjj
        rw [hlev_idx] at hj
        cases hj
        rw [hmem] at hl2
        cases hl2
        rw [hs] at hs2
        cases hs2
        rw [ht] at ht2
        cases ht2
        have hiold : st.levels[i]? = some (some li) := by
          rw [← hlev_ne i hii]
          exact hi
        obtain ⟨l1', s1', t1', k1, hl1', hs1', ht1', _, hmark1, _⟩ :=
          hinv.assigned i li hiold
        rw [hl1] at hl1'
        cases hl1'
        rw [hs1] at hs1'
        cases hs1'
        rw [ht1] at ht1'
        cases ht1'
        intro habs
        subst habs
        exact hfree g hg2 (hmark1 g hg1)
      · rw [hlev_ne i hii] at hi
        rw [hlev_ne j hjj] at hj
        exact hinv.collide i j li lj l1 l2 si ti sj tj g hne hi hj hl1 hl2
          hs1 ht1 hs2 ht2 hg1 hg2
  · -- top_nonneg
    exact le_trans hinv.top_nonneg hmt_ge
  · -- bot_nonpos
    exact le_trans hmb_le hinv.bot_nonpos
  · -- top_bound
    intro i lvl li hi hl hd1
    by_cases hii : i = idx
    · subst hii
      rw [hlev_idx] at hi
      cases hi
      rw [hmem] at hl
      cases hl
      rw [hd1] at hlvl
      constructor
      · rw [hlvl]; omega
      · rw [assignLink_maxTop, ← hr1]
        split
        · omega
        · rename_i hnot
          rw [hd1] at hnot
          push_neg at hnot
          have := hnot rfl
          omega
    · rw [hlev_ne i hii] at hi
      have := hinv.top_bound i lvl li hi hl hd1
      exact ⟨this.1, le_trans this.2 hmt_ge⟩
  · -- bot_bound
    intro i lvl li hi hl hd1
    by_cases hii : i = idx
    · subst hii
      rw [hlev_idx] at hi
      cases hi
      rw [hmem] at hl
      cases hl
      rw [hd1] at hlvl
      constructor
      · rw [assignLink_maxBot, ← hr1]
        split
        · omega
        · rename_i hnot
          rw [hd1] at hnot
          push_neg at hnot
          have := hnot rfl
          omega
      · rw [hlvl]; omega
    · rw [hlev_ne i hii] at hi
      have := hinv.bot_bound i lvl li hi hl hd1
      exact ⟨le_trans hmb_le this.1, this.2⟩
  · -- top_attained
    rw [assignLink_maxTop, ← hr1]
    split
    · rename_i hup
      exact Or.inr ⟨idx, r1, l, hlev_idx, hmem, hup.1, rfl⟩
    · rename_i hnot
      rcases hinv.top_attained with h0 | ⟨i0, lvl0, l0, hlv0, hin0, hdir0, heq0⟩
      · exact Or.inl h0
      · by_cases hii : i0 = idx
        · subst hii
          rw [hmem] at hin0
          cases hin0
          -- the reassigned witness: the new level equals the old one
          obtain ⟨l0', s0', t0', k0, hl0', hs0', ht0', hlvl0, _, hblock0⟩ :=
            hinv.assigned i0 lvl0 hlv0
          rw [hmem] at hl0'
          cases hl0'
          rw [hs] at hs0'
          cases hs0'
          rw [ht] at ht0'
          cases ht0'
          have hk_ge : k0 ≤ k := by
            by_contra hlt
            push_neg at hlt
            exact hblock0 k hlt (by rw [← hlvl]; exact hfree)
          have hk_eq : k = k0 := by
            rcases Nat.lt_or_ge k0 k with hlt | hge
            · exfalso
              rw [hdir0] at hlvl hlvl0
              have : r1 = (k : Int) + 1 := by rw [hlvl]; ring
              have h0' : lvl0 = (k0 : Int) + 1 := by rw [hlvl0]; ring
              rw [hdir0] at hnot
              push_neg at hnot
              have hle := hnot rfl
              omega
            · omega
          refine Or.inr ⟨i0, r1, l, hlev_idx, hmem, hdir0, ?_⟩
          rw [hlvl, hk_eq, ← hlvl0, heq0]
        · exact Or.inr ⟨i0, lvl0, l0, by rw [hlev_ne i0 hii]; exact hlv0,
            hin0, hdir0, heq0⟩
  · -- bot_attained
    rw [assignLink_maxBot, ← hr1]
    split
    · rename_i hup
      exact Or.inr ⟨idx, r1, l, hlev_idx, hmem, hup.1, rfl⟩
    · rename_i hnot
      rcases hinv.bot_attained with h0 | ⟨i0, lvl0, l0, hlv0, hin0, hdir0, heq0⟩
      · exact Or.inl h0
      · by_cases hii : i0 = idx
        · subst hii
          rw [hmem] at hin0
          cases hin0
          obtain ⟨l0', s0', t0', k0, hl0', hs0', ht0', hlvl0, _, hblock0⟩ :=
            hinv.assigned i0 lvl0 hlv0
          rw [hmem] at hl0'
          cases hl0'
          rw [hs] at hs0'
          cases hs0'
          rw [ht] at ht0'
          cases ht0'
          have hk_ge : k0 ≤ k := by
            by_contra hlt
            push_neg at hlt
            exact hblock0 k hlt (by rw [← hlvl]; exact hfree)
          have hk_eq : k = k0 := by
            rcases Nat.lt_or_ge k0 k with hlt | hge
            · exfalso
              rw [hdir0] at hlvl hlvl0
              have : r1 = -((k : Int) + 1) := by rw [hlvl]; ring
              have h0' : lvl0 = -((k0 : Int) + 1) := by rw [hlvl0]; ring
              rw [hdir0] at hnot
              push_neg at hnot
              have hle := hnot rfl
              omega
            · omega
          refine Or.inr ⟨i0, r1, l, hlev_idx, hmem, hdir0, ?_⟩
          rw [hlvl, hk_eq, ← hlvl0, heq0]
        · exact Or.inr ⟨i0, lvl0, l0, by rw [hlev_ne i0 hii]; exact hlv0,
            hin0, hdir0, heq0⟩

/-- processLink preserves the layout invariant. -/
theorem processLink_inv (infos : List LinkInfo) (st : LayoutState)
    (dist : Nat) (idx : Nat) (l : LinkInfo)
    (hmem : infos[idx]? = some l)
    (hdir : l.dir = 1 ∨ l.dir = -1)
    (hinv : LayoutInv infos st) :
    LayoutInv infos (processLink dist st idx l) := by
  unfold processLink
  split
  · exact hinv
  · rename_i hstart
    split
    · rename_i dl s t hd hs ht
      split
      · exact assignLink_inv infos st idx l s t hmem hs ht hstart
          (by rw [hd]; simp) hdir hinv
      · exact hinv
    · exact hinv

/-- The empty state satisfies the layout invariant. -/
theorem initState_inv (g : Graph) :
    LayoutInv (g.links.map (resolveLink g.nodes)) (initState g) := by
  have hlev : (initState g).levels = g.links.map (fun _ => (none : Option Int)) := rfl
  have hnone : ∀ i : Nat, i < g.links.length →
      (initState g).levels[i]? = some none := by
    intro i hlt
    rw [hlev, List.getElem?_map, List.getElem?_eq_getElem hlt]
    rfl
  have hnosome : ∀ (i : Nat) (lvl : Int),
      (initState g).levels[i]? = some (some lvl) → False := by
    intro i lvl hi
    rw [hlev, List.getElem?_map] at hi
    cases h : g.links[i]? with
    | none => rw [h] at hi; simp at hi
    | some a => rw [h] at hi; simp at hi
  refine ⟨?_, ?_, ?_, ?_, ?_, ?_, ?_, ?_, ?_, ?_⟩
  · simp [initState]
  · intro i l hi _
    have hlt : i < g.links.length := by
      rcases List.getElem?_eq_some.1 hi with ⟨h, _⟩
      simpa using h
    exact hnone i hlt
  · intro i lvl hi
    exact absurd hi (fun h => hnosome i lvl h)
  · intro i j li lj l1 l2 si ti sj tj g' _ hi _ _ _ _ _ _ _ _ _
    exact absurd hi (fun h => hnosome i li h)
  · exact le_refl 0
  · exact le_refl 0
  · intro i lvl l hi _ _
    exact absurd hi (fun h => hnosome i lvl h)
  · intro i lvl l hi _ _
    exact absurd hi (fun h => hnosome i lvl h)
  · exact Or.inl rfl
  · exact Or.inl rfl

/-- Fold a preserved predicate over a list. -/
theorem foldl_preserve {α β : Type _} (P : β → Prop) (f : β → α → β)
    (l : List α) (st : β) (h0 : P st)
    (hstep : ∀ b a, a ∈ l → P b → P (f b a)) : P (l.foldl f st) :=
  List.foldlRecOn l f st h0 (fun b hb a ha => hstep b a ha hb)

theorem prepareGraph_def (g : Graph) :
    prepareGraph g = ⟨g.links.map (resolveLink g.nodes), (finalState g).occ,
      (finalState g).maxTop, (finalState g).maxBot, (finalState g).levels⟩ := rfl

/-- Every resolved link has direction 1 or -1. -/
theorem infos_dir (g : Graph) :
    ∀ (i : Nat) (l : LinkInfo),
      (g.links.map (resolveLink g.nodes))[i]? = some l →
      l.dir = 1 ∨ l.dir = -1 := by
  intro i l hi
  rw [List.getElem?_map] at hi
  cases h : g.links[i]? with
  | none => rw [h] at hi; simp at hi
  | some raw =>
    rw [h] at hi
    simp at hi
    rw [← hi]
    exact resolveLink_dir _ _

/-- The layout invariant holds of the final state, for every graph. -/
theorem finalState_inv (g : Graph) :
    LayoutInv (g.links.map (resolveLink g.nodes)) (finalState g) := by
  unfold finalState
  apply foldl_preserve _ _ _ _ (initState_inv g)
  intro st dist _ hP
  apply foldl_preserve _ _ _ _ hP
  intro st2 p hp hP2
  have hmem : (g.links.map (resolveLink g.nodes))[p.1]? = some p.2 :=
    List.mem_enum_iff_getElem?.1 hp
  exact processLink_inv _ st2 dist p.1 p.2 hmem (infos_dir g p.1 p.2 hmem) hP2

/-! ### Further helper lemmas -/

theorem markSpan_outside (occ : Occ) (lo hi : Nat) (lvl : Int) (g : Nat)
    (hg : g ∉ Finset.Ico lo hi) : markSpan occ lo hi lvl g = occ g := by
  unfold markSpan
  rw [if_neg]
  intro h
  exact hg (Finset.mem_Ico.2 h)

/-- With at least totalOcc + 1 fuel, the search result no longer depends on
the fuel: the while-loop has terminated. -/
theorem findLevelFuel_stable (occ : Occ) (lo hi : Nat) (dir : Int)
    (hd : dir ≠ 0) (fuel : Nat) (hfuel : totalOcc occ lo hi + 1 ≤ fuel) :
    findLevelFuel occ lo hi dir fuel dir =
      findLevelFuel occ lo hi dir (totalOcc occ lo hi + 1) dir := by
  obtain ⟨k0, hk0, hfree0⟩ := exists_free_level occ lo hi dir hd
  have hex : ∀ f : Nat, totalOcc occ lo hi + 1 ≤ f →
      ∃ j : Nat, j < f ∧ spanFree occ lo hi (dir + dir * j) := by
    intro f hf
    refine ⟨k0, by omega, ?_⟩
    have e : dir + dir * (k0 : Int) = dir * ((k0 : Int) + 1) := by ring
    rwa [e]
  obtain ⟨j1, hj1, he1, hf1, hm1⟩ :=
    findLevelFuel_spec occ lo hi dir fuel dir (hex fuel hfuel)
  obtain ⟨j2, hj2, he2, hf2, hm2⟩ :=
    findLevelFuel_spec occ lo hi dir (totalOcc occ lo hi + 1) dir
      (hex _ (le_refl _))
  have hjj : j1 = j2 := by
    rcases Nat.lt_trichotomy j1 j2 with h | h | h
    · exact absurd hf1 (hm2 j1 h)
    · exact h
    · exact absurd hf2 (hm1 j2 h)
  rw [he1, he2, hjj]

/-- The resolved info of the i-th raw link. -/
theorem infos_entry (g : Graph) (i : Nat) (l : RawLink)
    (hl : g.links[i]? = some l) :
    (g.links.map (resolveLink g.nodes))[i]? = some (resolveLink g.nodes l) := by
  rw [List.getElem?_map, hl]
  rfl

/-- A resolved TOP link (start 0) has dir 1 and no source or distance. -/
theorem infos_top (g : Graph) (i : Nat) (l : LinkInfo)
    (hl : (g.links.map (resolveLink g.nodes))[i]? = some l)
    (h0 : l.start = 0) :
    l.dir = 1 ∧ l.distance = none ∧ l.source = none := by
  rw [List.getElem?_map] at hl
  cases h : g.links[i]? with
  | none => rw [h] at hl; simp at hl
  | some raw =>
    rw [h] at hl
    simp at hl
    subst hl
    by_cases hz : raw.start = 0
    · simp [resolveLink, hz]
    · exfalso
      apply hz
      unfold resolveLink at h0
      rw [if_neg hz] at h0
      exact h0

/-! ### Claim theorems -/

/-- C1: after a full prepareGraph pass over any graph, no two non-top-level
links whose node-index spans [min(source,target), max(source,target))
overlap on at least one adjacent-node gap carry the same signed level. -/
theorem C1_no_overlap_same_level (g : Graph) (i j : Nat) (li lj : Int)
    (l1 l2 : LinkInfo) (si ti sj tj gap : Nat)
    (hne : i ≠ j)
    (hi : (prepareGraph g).levels[i]? = some (some li))
    (hj : (prepareGraph g).levels[j]? = some (some lj))
    (hl1 : (prepareGraph g).infos[i]? = some l1)
    (hl2 : (prepareGraph g).infos[j]? = some l2)
    (hs1 : l1.source = some si) (ht1 : l1.target = some ti)
    (hs2 : l2.source = some sj) (ht2 : l2.target = some tj)
    (hg1 : gap ∈ Finset.Ico (min si ti) (max si ti))
    (hg2 : gap ∈ Finset.Ico (min sj tj) (max sj tj)) :
    li ≠ lj :=
  (finalState_inv g).collide i j li lj l1 l2 si ti sj tj gap hne hi hj
    hl1 hl2 hs1 ht1 hs2 ht2 hg1 hg2

/-- Witness for C1: in demoTwoLinks both links span gap 0; they get the
distinct levels 1 and 2. -/
theorem C1_witness : (1 : Int) ≠ 2 :=
  C1_no_overlap_same_level demoTwoLinks 0 1 1 2
    (resolveLink [1, 2] ⟨1, 2, "ARG1", "NEQ"⟩)
    (resolveLink [1, 2] ⟨1, 2, "ARG2", "NEQ"⟩)
    0 1 0 1 0
    (by decide) (by rfl) (by rfl) (by rfl) (by rfl)
    (by rfl) (by rfl) (by rfl) (by rfl) (by decide) (by decide)

/-- C2 counterexample: a link with empty rargname and post NEQ receives
direction -1 (dmrs.js:178 tests rargname == "" OR post H), not the +1 the
claim predicts for it. -/
theorem C2_counterexample :
    (resolveLink [1, 2] ⟨1, 2, "", "NEQ"⟩).rargname = "" ∧
    (resolveLink [1, 2] ⟨1, 2, "", "NEQ"⟩).post = "NEQ" ∧
    (resolveLink [1, 2] ⟨1, 2, "", "NEQ"⟩).dir = -1 ∧ ((-1 : Int) ≠ 1) :=
  ⟨rfl, rfl, rfl, by decide⟩

/-- C2 (amended): for a non-top-level link the computed direction is -1
exactly when the argument role is empty OR the post type uppercases to
"H"; it is +1 in every other case. -/
theorem C2_direction (ids : List Nat) (l : RawLink) (h0 : l.start ≠ 0) :
    ((resolveLink ids l).dir = -1 ↔
      (l.rargname = "" ∨ upcase l.post = "H")) ∧
    ((resolveLink ids l).dir = 1 ↔
      ¬ (l.rargname = "" ∨ upcase l.post = "H")) := by
  unfold resolveLink
  rw [if_neg h0]
  by_cases hc : l.rargname = "" ∨ upcase l.post = "H" <;> simp [hc]

/-- Witness for C2: the empty-rargname NEQ link gets direction -1. -/
theorem C2_witness :
    (resolveLink [1, 2] ⟨1, 2, "", "NEQ"⟩).dir = -1 ↔
      ("" = "" ∨ upcase "NEQ" = "H") :=
  (C2_direction [1, 2] ⟨1, 2, "", "NEQ"⟩ (by decide)).1

/-- C3: the level assigned to a processed link is the minimal-magnitude
level of its own sign that is free on every gap of the span (candidates
dir, 2 dir, 3 dir, ... are tried in order), and the chosen level is then
marked occupied on every gap of the span and nowhere else. -/
theorem C3_minimal_level (occ : Occ) (s t : Nat) (dir : Int)
    (hdir : dir = 1 ∨ dir = -1) :
    ∃ k : Nat,
      (nextAvailableLevel occ s t dir).1 = dir * ((k : Int) + 1) ∧
      spanFree occ (min s t) (max s t) (dir * ((k : Int) + 1)) ∧
      (∀ j : Nat, j < k →
        ¬ spanFree occ (min s t) (max s t) (dir * ((j : Int) + 1))) ∧
      (∀ gap ∈ Finset.Ico (min s t) (max s t),
        (nextAvailableLevel occ s t dir).1 ∈ (nextAvailableLevel occ s t dir).2 gap) ∧
      (∀ gap : Nat, gap ∉ Finset.Ico (min s t) (max s t) →
        (nextAvailableLevel occ s t dir).2 gap = occ gap) := by
  obtain ⟨k, hlvl, hfree, hmin, hocc⟩ := nextAvailableLevel_spec occ s t dir hdir
  refine ⟨k, hlvl, hfree, hmin, ?_, ?_⟩
  · intro gap hg
    rw [nextAvailableLevel_snd]
    exact markSpan_mem _ _ _ _ _ hg
  · intro gap hg
    rw [nextAvailableLevel_snd]
    exact markSpan_outside _ _ _ _ _ hg

/-- Witness for C3 on the empty occupancy over the span 0-2. -/
theorem C3_witness :
    ∃ k : Nat,
      (nextAvailableLevel (fun _ => ∅) 0 2 1).1 = 1 * ((k : Int) + 1) ∧
      spanFree (fun _ => ∅) (min 0 2) (max 0 2) (1 * ((k : Int) + 1)) ∧
      (∀ j : Nat, j < k →
        ¬ spanFree (fun _ => ∅) (min 0 2) (max 0 2) (1 * ((j : Int) + 1))) ∧
      (∀ gap ∈ Finset.Ico (min 0 2) (max 0 2),
        (nextAvailableLevel (fun _ => ∅) 0 2 1).1 ∈
          (nextAvailableLevel (fun _ => ∅) 0 2 1).2 gap) ∧
      (∀ gap : Nat, gap ∉ Finset.Ico (min 0 2) (max 0 2) →
        (nextAvailableLevel (fun _ => ∅) 0 2 1).2 gap = (fun _ => (∅ : Finset Int)) gap) :=
  C3_minimal_level (fun _ => ∅) 0 2 1 (Or.inl rfl)

/-- C6: after layout of any graph the extents satisfy maxTopLevel ≥ 0 and
maxBottomLevel ≤ 0, every direction +1 link's level lies in
[1, maxTopLevel], every direction -1 link's level lies in
[maxBottomLevel, -1]; in particular no assigned level is 0. -/
theorem C6_level_bounds (g : Graph) :
    0 ≤ (prepareGraph g).maxTopLevel ∧ (prepareGraph g).maxBottomLevel ≤ 0 ∧
    ∀ (i : Nat) (lvl : Int) (l : LinkInfo),
      (prepareGraph g).levels[i]? = some (some lvl) →
      (prepareGraph g).infos[i]? = some l →
      (l.dir = 1 → 1 ≤ lvl ∧ lvl ≤ (prepareGraph g).maxTopLevel) ∧
      (l.dir = -1 → (prepareGraph g).maxBottomLevel ≤ lvl ∧ lvl ≤ -1) ∧
      lvl ≠ 0 := by
  have hinv := finalState_inv g
  refine ⟨hinv.top_nonneg, hinv.bot_nonpos, ?_⟩
  intro i lvl l hi hl
  refine ⟨fun h1 => hinv.top_bound i lvl l hi hl h1,
    fun h1 => hinv.bot_bound i lvl l hi hl h1, ?_⟩
  obtain ⟨l', s', t', k, hl', _, _, hlvl, _, _⟩ := hinv.assigned i lvl hi
  have hd := infos_dir g i l' hl'
  rcases hd with h | h <;> rw [h] at hlvl <;> omega

/-- Witness for C6 at demoTwoLinks: the first link's level 1 is in range. -/
theorem C6_witness :
    ((1 : Int) = 1 → 1 ≤ (1 : Int) ∧ (1 : Int) ≤ (prepareGraph demoTwoLinks).maxTopLevel) ∧
    ((1 : Int) = -1 → (prepareGraph demoTwoLinks).maxBottomLevel ≤ 1 ∧ (1 : Int) ≤ -1) ∧
    (1 : Int) ≠ 0 :=
  (C6_level_bounds demoTwoLinks).2.2 0 1
    (resolveLink [1, 2] ⟨1, 2, "ARG1", "NEQ"⟩) (by rfl) (by rfl)

/-- C10: the extents are exactly attained: maxTopLevel bounds every
direction +1 level from above and is either 0 or itself an assigned
direction +1 level, and symmetrically for maxBottomLevel. -/
theorem C10_extents_attained (g : Graph) :
    (∀ (i : Nat) (lvl : Int) (l : LinkInfo),
      (prepareGraph g).levels[i]? = some (some lvl) →
      (prepareGraph g).infos[i]? = some l →
      (l.dir = 1 → lvl ≤ (prepareGraph g).maxTopLevel) ∧
      (l.dir = -1 → (prepareGraph g).maxBottomLevel ≤ lvl)) ∧
    ((prepareGraph g).maxTopLevel = 0 ∨
      ∃ (i : Nat) (lvl : Int) (l : LinkInfo),
        (prepareGraph g).levels[i]? = some (some lvl) ∧
        (prepareGraph g).infos[i]? = some l ∧ l.dir = 1 ∧
        lvl = (prepareGraph g).maxTopLevel) ∧
    ((prepareGraph g).maxBottomLevel = 0 ∨
      ∃ (i : Nat) (lvl : Int) (l : LinkInfo),
        (prepareGraph g).levels[i]? = some (some lvl) ∧
        (prepareGraph g).infos[i]? = some l ∧ l.dir = -1 ∧
        lvl = (prepareGraph g).maxBottomLevel) := by
  have hinv := finalState_inv g
  refine ⟨?_, hinv.top_attained, hinv.bot_attained⟩
  intro i lvl l hi hl
  exact ⟨fun h1 => (hinv.top_bound i lvl l hi hl h1).2,
    fun h1 => (hinv.bot_bound i lvl l hi hl h1).1⟩

/-- Witness for C10 at demoTwoLinks: level 2 of the second link is below
the top extent. -/
theorem C10_witness :
    ((1 : Int) = 1 → (2 : Int) ≤ (prepareGraph demoTwoLinks).maxTopLevel) ∧
    ((1 : Int) = -1 → (prepareGraph demoTwoLinks).maxBottomLevel ≤ 2) :=
  (C10_extents_attained demoTwoLinks).1 1 2
    (resolveLink [1, 2] ⟨1, 2, "ARG2", "NEQ"⟩) (by rfl) (by rfl)

/-- C5: a TOP link (start 0) is never assigned a level, never occupies any
lane (processing it leaves the layout state untouched), always has
direction 1, its path's vertical extent is maxTopLevel + 1 lanes, and that
lane is strictly above the lane of every direction +1 link. -/
theorem C5_top_link (g : Graph) (i : Nat) (l : LinkInfo)
    (hl : (prepareGraph g).infos[i]? = some l) (htop : l.start = 0) :
    (prepareGraph g).levels[i]? = some none ∧
    (∀ (st : LayoutState) (dist idx : Nat), processLink dist st idx l = st) ∧
    l.dir = 1 ∧
    (∀ y1 : Int, topLinkY2 (prepareGraph g) l y1 =
      y1 + ((prepareGraph g).maxTopLevel + 1) * level_dy) ∧
    (∀ (j : Nat) (lvl : Int) (lj : LinkInfo),
      (prepareGraph g).levels[j]? = some (some lvl) →
      (prepareGraph g).infos[j]? = some lj → lj.dir = 1 →
      lvl < (prepareGraph g).maxTopLevel + 1) := by
  have hinv := finalState_inv g
  obtain ⟨hdir1, hdist, _⟩ := infos_top g i l hl htop
  refine ⟨hinv.unassigned i l hl (Or.inl htop), ?_, hdir1, ?_, ?_⟩
  · intro st dist idx
    unfold processLink
    rw [if_pos htop]
  · intro y1
    unfold topLinkY2
    rw [if_pos hdir1]
  · intro j lvl lj hj hlj hdj
    have hb := (hinv.top_bound j lvl lj hj hlj hdj).2
    have he : (prepareGraph g).maxTopLevel = (finalState g).maxTop := rfl
    omega

/-- Witness for C5 at demoTop: the TOP link has no level and the ordinary
link's level 1 is strictly below the TOP lane maxTopLevel + 1. -/
theorem C5_witness :
    (prepareGraph demoTop).levels[0]? = some none ∧
    (1 : Int) < (prepareGraph demoTop).maxTopLevel + 1 :=
  ⟨(C5_top_link demoTop 0 (resolveLink [3, 4] ⟨0, 3, "", "H"⟩)
      (by rfl) (by rfl)).1,
    (C5_top_link demoTop 0 (resolveLink [3, 4] ⟨0, 3, "", "H"⟩)
      (by rfl) (by rfl)).2.2.2.2 1 1
      (resolveLink [3, 4] ⟨3, 4, "ARG1", "NEQ"⟩) (by rfl) (by rfl) (by rfl)⟩

/-- C7 counterexample: the claim asks for a reported MissingReferenceError,
but prepareGraph is a total function with no error output: on a graph
whose only link references the absent node id 9 it returns normally,
silently leaving the link without a level (its JS distance is NaN and it
is skipped by every round of the dist loop). -/
theorem C7_counterexample :
    nodeIdx demoMissing.nodes 9 = none ∧
    (prepareGraph demoMissing).levels = [none] ∧
    (prepareGraph demoMissing).maxTopLevel = 0 ∧
    (prepareGraph demoMissing).maxBottomLevel = 0 :=
  ⟨rfl, rfl, rfl, rfl⟩

/-- C7 (amended): a non-top-level link whose from- or to-identifier is
absent from the node list is silently ignored by level assignment: no
error is reported (the layout function is total) and the link's level
stays none. -/
theorem C7_missing_ref_silent (g : Graph) (i : Nat) (l : RawLink)
    (hl : g.links[i]? = some l) (hstart : l.start ≠ 0)
    (hmiss : nodeIdx g.nodes l.start = none ∨ nodeIdx g.nodes l.end_ = none) :
    (prepareGraph g).levels[i]? = some none := by
  have hinfo := infos_entry g i l hl
  apply (finalState_inv g).unassigned i (resolveLink g.nodes l) hinfo
  refine Or.inr ?_
  unfold resolveLink
  rw [if_neg hstart]
  rcases hmiss with h | h
  · rw [h]
  · rw [h]
    cases nodeIdx g.nodes l.start <;> rfl

/-- Witness for C7 at demoMissing. -/
theorem C7_witness : (prepareGraph demoMissing).levels[0]? = some none :=
  C7_missing_ref_silent demoMissing 0 ⟨3, 9, "ARG1", "NEQ"⟩
    (by rfl) (by decide) (Or.inr (by rfl))

/-- C8: for either direction the level search always succeeds — the result
is free on the whole span, a free candidate exists within the totalOcc
bound, the fuelled loop is stable once the fuel passes that bound (the JS
while-loop terminates), and the layout pass is total: it returns one level
slot per input link. -/
theorem C8_search_terminates (occ : Occ) (s t : Nat) (dir : Int)
    (hdir : dir = 1 ∨ dir = -1) :
    spanFree occ (min s t) (max s t) (nextAvailableLevel occ s t dir).1 ∧
    (∃ k : Nat, k ≤ totalOcc occ (min s t) (max s t) ∧
      spanFree occ (min s t) (max s t) (dir * ((k : Int) + 1))) ∧
    (∀ fuel : Nat, totalOcc occ (min s t) (max s t) + 1 ≤ fuel →
      findLevelFuel occ (min s t) (max s t) dir fuel dir =
        (nextAvailableLevel occ s t dir).1) ∧
    (∀ g : Graph, (prepareGraph g).levels.length = g.links.length) := by
  have hd0 : dir ≠ 0 := by rcases hdir with h | h <;> simp [h]
  obtain ⟨k, hlvl, hfree, _, _⟩ := nextAvailableLevel_spec occ s t dir hdir
  refine ⟨by rw [hlvl]; exact hfree,
    exists_free_level occ (min s t) (max s t) dir hd0, ?_, ?_⟩
  · intro fuel hfuel
    exact findLevelFuel_stable occ (min s t) (max s t) dir hd0 fuel hfuel
  · intro g
    have := (finalState_inv g).len
    rw [prepareGraph_def]
    rw [this, List.length_map]

/-- Witness for C8 on the empty occupancy. -/
theorem C8_witness :
    spanFree (fun _ => ∅) (min 0 1) (max 0 1)
      (nextAvailableLevel (fun _ => ∅) 0 1 1).1 ∧
    (prepareGraph demoTwoLinks).levels.length = demoTwoLinks.links.length :=
  ⟨(C8_search_terminates (fun _ => ∅) 0 1 1 (Or.inl rfl)).1,
    (C8_search_terminates (fun _ => ∅) 0 1 1 (Or.inl rfl)).2.2.2 demoTwoLinks⟩

/-! ### Label-set lemmas -/

theorem eqStep_subset (s : Finset Nat) (l : RawLink) : s ⊆ eqStep s l := by
  unfold eqStep
  split
  · split
    · exact Finset.subset_insert _ _
    · split
      · exact Finset.subset_insert _ _
      · exact Finset.Subset.refl _
  · exact Finset.Subset.refl _

theorem passOnce_cons (l : RawLink) (ls : List RawLink) (s : Finset Nat) :
    passOnce (l :: ls) s = passOnce ls (eqStep s l) := rfl

theorem passOnce_subset (links : List RawLink) :
    ∀ s : Finset Nat, s ⊆ passOnce links s := by
  induction links with
  | nil => intro s; exact Finset.Subset.refl _
  | cons l ls ih =>
    intro s
    rw [passOnce_cons]
    exact (eqStep_subset s l).trans (ih (eqStep s l))

theorem eqStep_new_mem (s : Finset Nat) (l : RawLink) (x : Nat)
    (hx : x ∈ eqStep s l) : x ∈ s ∨ x = l.start ∨ x = l.end_ := by
  unfold eqStep at hx
  split at hx
  · split at hx
    · rcases Finset.mem_insert.1 hx with h | h
      · exact Or.inr (Or.inr h)
      · exact Or.inl h
    · split at hx
      · rcases Finset.mem_insert.1 hx with h | h
        · exact Or.inr (Or.inl h)
        · exact Or.inl h
      · exact Or.inl hx
  · exact Or.inl hx

theorem idSet_mem_start (links : List RawLink) (l : RawLink)
    (hl : l ∈ links) : l.start ∈ idSet links := by
  induction links with
  | nil => cases hl
  | cons l0 ls ih =>
    rcases List.mem_cons.1 hl with rfl | h
    · simp [idSet]
    · simp [idSet]
      exact Or.inr (Or.inr (ih h))

theorem idSet_mem_end (links : List RawLink) (l : RawLink)
    (hl : l ∈ links) : l.end_ ∈ idSet links := by
  induction links with
  | nil => cases hl
  | cons l0 ls ih =>
    rcases List.mem_cons.1 hl with rfl | h
    · simp [idSet]
    · simp [idSet]
      exact Or.inr (Or.inr (ih h))

theorem passOnce_new_mem (links : List RawLink) :
    ∀ (s : Finset Nat) (x : Nat), x ∈ passOnce links s →
      x ∈ s ∨ x ∈ idSet links := by
  induction links with
  | nil => intro s x hx; exact Or.inl hx
  | cons l ls ih =>
    intro s x hx
    rw [passOnce_cons] at hx
    rcases ih (eqStep s l) x hx with h | h
    · rcases eqStep_new_mem s l x h with h1 | h1 | h1
      · exact Or.inl h1
      · subst h1
        exact Or.inr (idSet_mem_start (l :: ls) l (List.mem_cons_self l ls))
      · subst h1
        exact Or.inr (idSet_mem_end (l :: ls) l (List.mem_cons_self l ls))
    · refine Or.inr ?_
      show x ∈ insert l.start (insert l.end_ (idSet ls))
      exact Finset.mem_insert.2 (Or.inr (Finset.mem_insert.2 (Or.inr h)))

theorem labelFix_zero (links : List RawLink) (s : Finset Nat) :
    labelFix links 0 s = s := rfl

theorem labelFix_succ (links : List RawLink) (n : Nat) (s : Finset Nat) :
    labelFix links (n + 1) s =
      if passOnce links s = s then s
      else labelFix links n (passOnce links s) := rfl

theorem labelFix_subset (links : List RawLink) :
    ∀ (n : Nat) (s : Finset Nat), s ⊆ labelFix links n s := by
  intro n
  induction n with
  | zero => intro s; exact Finset.Subset.refl _
  | succ m ih =>
    intro s
    rw [labelFix_succ]
    split
    · exact Finset.Subset.refl _
    · exact (passOnce_subset links s).trans (ih _)

/-- With more fuel than idSet has elements, labelFix reaches a fixed point
of passOnce: the while-loop of updateHighlights has terminated. -/
theorem labelFix_fixed (links : List RawLink) :
    ∀ (n : Nat) (s : Finset Nat), (idSet links \ s).card < n →
      passOnce links (labelFix links n s) = labelFix links n s := by
  intro n
  induction n with
  | zero => intro s h; omega
  | succ m ih =>
    intro s hcard
    rw [labelFix_succ]
    by_cases hfix : passOnce links s = s
    · rw [if_pos hfix, hfix]
    · rw [if_neg hfix]
      apply ih
      obtain ⟨x, hx1, hx2⟩ :=
        Finset.exists_of_ssubset
          (Finset.ssubset_iff_subset_ne.2
            ⟨passOnce_subset links s, fun h => hfix h.symm⟩)
      have hxid : x ∈ idSet links := by
        rcases passOnce_new_mem links s x hx1 with h | h
        · exact absurd h hx2
        · exact h
      have hsub : idSet links \ passOnce links s ⊆ idSet links \ s :=
        Finset.sdiff_subset_sdiff (Finset.Subset.refl _) (passOnce_subset links s)
      have hstrict : (idSet links \ passOnce links s).card <
          (idSet links \ s).card := by
        apply Finset.card_lt_card
        rw [Finset.ssubset_iff_of_subset hsub]
        exact ⟨x, Finset.mem_sdiff.2 ⟨hxid, hx2⟩,
          fun h => (Finset.mem_sdiff.1 h).2 hx1⟩
      omega

/-- At a fixed point of passOnce, every EQ link has either both or neither
endpoint in the set. -/
theorem passOnce_fixed_closed (links : List RawLink) :
    ∀ s : Finset Nat, passOnce links s = s →
      ∀ l ∈ links, l.post = "EQ" →
        (l.start ∈ s → l.end_ ∈ s) ∧ (l.end_ ∈ s → l.start ∈ s) := by
  induction links with
  | nil => intro s _ l hl; cases hl
  | cons l0 ls ih =>
    intro s hfix l hl hpost
    rw [passOnce_cons] at hfix
    have hes : eqStep s l0 = s := by
      apply Finset.Subset.antisymm _ (eqStep_subset s l0)
      have h2 := passOnce_subset ls (eqStep s l0)
      rw [hfix] at h2
      exact h2
    have hfix' : passOnce ls s = s := by
      rw [hes] at hfix
      exact hfix
    rcases List.mem_cons.1 hl with rfl | hmem
    · constructor
      · intro hstart
        by_contra hend
        have he : eqStep s l = insert l.end_ s := by
          unfold eqStep
          rw [if_pos hpost, if_pos ⟨hstart, hend⟩]
        rw [he] at hes
        exact hend (hes ▸ Finset.mem_insert_self l.end_ s)
      · intro hend
        by_contra hstart
        have hc1 : ¬ (l.start ∈ s ∧ l.end_ ∉ s) := fun h => hstart h.1
        have he : eqStep s l = insert l.start s := by
          unfold eqStep
          rw [if_pos hpost, if_neg hc1, if_pos ⟨hend, hstart⟩]
        rw [he] at hes
        exact hstart (hes ▸ Finset.mem_insert_self l.start s)
    · exact ih s hfix' l hmem hpost

theorem initLabelSet_aux (nid : Nat) (links : List RawLink) :
    ∀ (a : Finset Nat) (x : Nat),
      (x ∈ links.foldl
        (fun s l => if l.post = "EQ" ∧ (l.start = nid ∨ l.end_ = nid)
          then insert l.start (insert l.end_ s) else s) a) ↔
      (x ∈ a ∨ ∃ l ∈ links, l.post = "EQ" ∧ (l.start = nid ∨ l.end_ = nid) ∧
        (x = l.start ∨ x = l.end_)) := by
  induction links with
  | nil => intro a x; simp
  | cons l0 ls ih =>
    intro a x
    rw [List.foldl_cons, ih]
    by_cases hc : l0.post = "EQ" ∧ (l0.start = nid ∨ l0.end_ = nid)
    · rw [if_pos hc]
      simp only [Finset.mem_insert, List.mem_cons]
      constructor
      · rintro ((rfl | rfl | h) | ⟨l, hl, hrest⟩)
        · exact Or.inr ⟨l0, Or.inl rfl, hc.1, hc.2, Or.inl rfl⟩
        · exact Or.inr ⟨l0, Or.inl rfl, hc.1, hc.2, Or.inr rfl⟩
        · exact Or.inl h
        · exact Or.inr ⟨l, Or.inr hl, hrest⟩
      · rintro (h | ⟨l, rfl | hl, hpost, hinc, hx⟩)
        · exact Or.inl (Or.inr (Or.inr h))
        · rcases hx with rfl | rfl
          · exact Or.inl (Or.inl rfl)
          · exact Or.inl (Or.inr (Or.inl rfl))
        · exact Or.inr ⟨l, hl, hpost, hinc, hx⟩
    · rw [if_neg hc]
      simp only [List.mem_cons]
      constructor
      · rintro (h | ⟨l, hl, hrest⟩)
        · exact Or.inl h
        · exact Or.inr ⟨l, Or.inr hl, hrest⟩
      · rintro (h | ⟨l, rfl | hl, hpost, hinc, hx⟩)
        · exact Or.inl h
        · exact absurd ⟨hpost, hinc⟩ hc
        · exact Or.inr ⟨l, hl, hpost, hinc, hx⟩

theorem initLabelSet_mem (links : List RawLink) (nid x : Nat) :
    x ∈ initLabelSet links nid ↔
      ∃ l ∈ links, l.post = "EQ" ∧ (l.start = nid ∨ l.end_ = nid) ∧
        (x = l.start ∨ x = l.end_) := by
  rw [initLabelSet, initLabelSet_aux]
  simp

theorem eqStep_sound (links : List RawLink) (nid : Nat) (l : RawLink)
    (hl : l ∈ links) (s : Finset Nat)
    (hs : ∀ x ∈ s, Relation.TransGen (eqAdj links) nid x) :
    ∀ x ∈ eqStep s l, Relation.TransGen (eqAdj links) nid x := by
  intro x hx
  unfold eqStep at hx
  split at hx
  · rename_i hpost
    split at hx
    · rename_i hcond
      rcases Finset.mem_insert.1 hx with rfl | h
      · exact (hs l.start hcond.1).tail ⟨l, hl, hpost, Or.inl ⟨rfl, rfl⟩⟩
      · exact hs x h
    · split at hx
      · rename_i hcond
        rcases Finset.mem_insert.1 hx with rfl | h
        · exact (hs l.end_ hcond.1).tail ⟨l, hl, hpost, Or.inr ⟨rfl, rfl⟩⟩
        · exact hs x h
      · exact hs x hx
  · exact hs x hx

theorem passOnce_sound (links : List RawLink) (nid : Nat) (s : Finset Nat)
    (hs : ∀ x ∈ s, Relation.TransGen (eqAdj links) nid x) :
    ∀ x ∈ passOnce links s, Relation.TransGen (eqAdj links) nid x := by
  unfold passOnce
  apply foldl_preserve
    (fun s2 => ∀ x ∈ s2, Relation.TransGen (eqAdj links) nid x) eqStep links s hs
  intro b a ha hb
  exact eqStep_sound links nid a ha b hb

theorem labelFix_sound (links : List RawLink) (nid : Nat) :
    ∀ (n : Nat) (s : Finset Nat),
      (∀ x ∈ s, Relation.TransGen (eqAdj links) nid x) →
      ∀ x ∈ labelFix links n s, Relation.TransGen (eqAdj links) nid x := by
  intro n
  induction n with
  | zero => intro s hs; exact hs
  | succ m ih =>
    intro s hs
    rw [labelFix_succ]
    split
    · exact hs
    · exact ih _ (passOnce_sound links nid s hs)

theorem initLabelSet_sound (links : List RawLink) (nid : Nat) :
    ∀ x ∈ initLabelSet links nid, Relation.TransGen (eqAdj links) nid x := by
  intro x hx
  rw [initLabelSet_mem] at hx
  obtain ⟨l, hl, hpost, hinc, hend⟩ := hx
  rcases hinc with h1 | h1 <;> rcases hend with rfl | rfl
  · -- nid = l.start, x = l.start
    rw [h1]
    exact (Relation.TransGen.single
        (⟨l, hl, hpost, Or.inl ⟨h1, rfl⟩⟩ : eqAdj links nid l.end_)).tail
      ⟨l, hl, hpost, Or.inr ⟨h1, rfl⟩⟩
  · exact Relation.TransGen.single ⟨l, hl, hpost, Or.inl ⟨h1, rfl⟩⟩
  · exact Relation.TransGen.single ⟨l, hl, hpost, Or.inr ⟨rfl, h1⟩⟩
  · -- nid = l.end_, x = l.end_
    rw [h1]
    exact (Relation.TransGen.single
        (⟨l, hl, hpost, Or.inr ⟨rfl, h1⟩⟩ : eqAdj links nid l.start)).tail
      ⟨l, hl, hpost, Or.inl ⟨rfl, h1⟩⟩

theorem labelSet_complete (links : List RawLink) (nid v : Nat)
    (h : Relation.TransGen (eqAdj links) nid v) : v ∈ labelSet links nid := by
  have hfixed : passOnce links (labelSet links nid) = labelSet links nid := by
    apply labelFix_fixed
    have hsd : (idSet links \ initLabelSet links nid).card ≤ (idSet links).card :=
      Finset.card_le_card Finset.sdiff_subset
    omega
  induction h with
  | single hadj =>
    obtain ⟨l, hl, hpost, hor⟩ := hadj
    show _ ∈ labelFix links ((idSet links).card + 1) (initLabelSet links nid)
    apply labelFix_subset
    rw [initLabelSet_mem]
    rcases hor with ⟨h1, h2⟩ | ⟨h1, h2⟩
    · exact ⟨l, hl, hpost, Or.inl h1, Or.inr h2.symm⟩
    · exact ⟨l, hl, hpost, Or.inr h2, Or.inl h1.symm⟩
  | tail hub hadj ih =>
    obtain ⟨l, hl, hpost, hor⟩ := hadj
    have hcl := passOnce_fixed_closed links (labelSet links nid) hfixed l hl hpost
    rcases hor with ⟨h1, h2⟩ | ⟨h1, h2⟩
    · rw [← h2]
      exact hcl.1 (by rw [h1]; exact ih)
    · rw [← h1]
      exact hcl.2 (by rw [h2]; exact ih)

/-- C9: for every selected node the computed label set is exactly the
transitive closure of undirected EQ-adjacency from that node (the
iterated expansion passes stop at this fixed point); and in the scenario
with one outbound ARG1/NEQ link X to Y and one inbound bare EQ link Z to X
the outbound set is Y alone, the label set is X and Z, and the scope set
is empty (ids X = 1, Y = 2, Z = 3). -/
theorem C9_label_set :
    (∀ (links : List RawLink) (nid v : Nat),
      v ∈ labelSet links nid ↔ Relation.TransGen (eqAdj links) nid v) ∧
    outSet [⟨1, 2, "ARG1", "NEQ"⟩, ⟨3, 1, "", "EQ"⟩] 1 = {2} ∧
    labelSet [⟨1, 2, "ARG1", "NEQ"⟩, ⟨3, 1, "", "EQ"⟩] 1 = {1, 3} ∧
    scopeSet [⟨1, 2, "ARG1", "NEQ"⟩, ⟨3, 1, "", "EQ"⟩] 1 = ∅ := by
  refine ⟨?_, by decide, by decide, by decide⟩
  intro links nid v
  constructor
  · intro hv
    exact labelFix_sound links nid ((idSet links).card + 1)
      (initLabelSet links nid) (initLabelSet_sound links nid) v hv
  · exact labelSet_complete links nid v

/-! ### Reduction of the dist loop to the selection order -/

theorem processLink_eq (dist : Nat) (st : LayoutState) (idx : Nat)
    (l : LinkInfo) :
    processLink dist st idx l =
      if procDist l = some dist then applySel st (idx, l) else st := by
  unfold processLink procDist applySel
  by_cases h0 : l.start = 0
  · simp [h0]
  · rw [if_neg h0, if_neg h0]
    cases hd : l.distance with
    | none => simp
    | some dl =>
      cases hs : l.source with
      | none => simp
      | some s =>
        cases ht : l.target with
        | none => simp
        | some t =>
          by_cases hdd : dl = dist
          · subst hdd
            simp
          · simp [hdd]

theorem processDist_eq (dist : Nat) :
    ∀ (ps : List (Nat × LinkInfo)) (st : LayoutState),
      processDist ps st dist =
        (ps.filter (fun p => decide (procDist p.2 = some dist))).foldl
          applySel st := by
  intro ps
  induction ps with
  | nil => intro st; rfl
  | cons p ps ih =>
    intro st
    show ps.foldl (fun st q => processLink dist st q.1 q.2)
        (processLink dist st p.1 p.2) = _
    by_cases hc : procDist p.2 = some dist
    · rw [List.filter_cons, if_pos (by simpa using hc), List.foldl_cons]
      have he : processLink dist st p.1 p.2 = applySel st p := by
        rw [processLink_eq, if_pos hc]
      rw [he]
      exact ih (applySel st p)
    · rw [List.filter_cons, if_neg (by simpa using hc)]
      have he : processLink dist st p.1 p.2 = st := by
        rw [processLink_eq, if_neg hc]
      rw [he]
      exact ih st

theorem foldl_bind_aux {α β γ : Type _} (f : γ → β → γ) (gs : α → List β) :
    ∀ (ls : List α) (st : γ),
      ls.foldl (fun acc a => (gs a).foldl f acc) st =
        (ls.flatMap gs).foldl f st := by
  intro ls
  induction ls with
  | nil => intro st; rfl
  | cons a as ih =>
    intro st
    rw [List.foldl_cons, List.flatMap_cons, List.foldl_append]
    exact ih _

/-- prepareGraph's nested dist loop is the fold of single assignments over
the selection order. -/
theorem finalState_selection (g : Graph) :
    finalState g =
      (selection (g.links.map (resolveLink g.nodes)).enum
        g.nodes.length).foldl applySel (initState g) := by
  unfold finalState selection
  rw [← foldl_bind_aux]
  have hfun : processDist (g.links.map (resolveLink g.nodes)).enum =
      fun st dist => (((g.links.map (resolveLink g.nodes)).enum).filter
        (fun p => decide (procDist p.2 = some dist))).foldl applySel st := by
    funext st dist
    exact processDist_eq dist _ st
  rw [hfun]

theorem pairwise_fst_lt_enum {α : Type _} (l : List α) :
    List.Pairwise (fun p q => p.1 < q.1) l.enum := by
  rw [List.pairwise_iff_getElem]
  intro i j hi hj hij
  simp only [List.getElem_enum]
  simpa using hij

theorem enum_fst_inj {α : Type _} (l : List α) (p q : Nat × α)
    (hp : p ∈ l.enum) (hq : q ∈ l.enum) (h : p.1 = q.1) : p = q := by
  rw [List.mem_enum_iff_getElem?] at hp hq
  rw [h] at hp
  rw [hp] at hq
  exact Prod.ext h (Option.some.inj hq)

theorem selection_chunk_key (ps : List (Nat × LinkInfo)) (d : Nat)
    (p : Nat × LinkInfo)
    (hp : p ∈ ps.filter (fun q => decide (procDist q.2 = some d))) :
    procDist p.2 = some d := by
  have h := (List.mem_filter.1 hp).2
  simpa using h

/-- The selection order is sorted: non-decreasing distance, ties broken by
input position. -/
theorem selection_pairwise (ps : List (Nat × LinkInfo)) (n : Nat)
    (hps : List.Pairwise (fun p q => p.1 < q.1) ps) :
    List.Pairwise selBefore (selection ps n) := by
  unfold selection
  rw [List.pairwise_flatMap]
  constructor
  · intro d _
    have hf : List.Pairwise (fun p q => p.1 < q.1)
        (ps.filter (fun q => decide (procDist q.2 = some d))) :=
      List.Pairwise.sublist (List.filter_sublist ps) hps
    apply List.Pairwise.imp_of_mem _ hf
    intro a b ha hb hlt
    refine Or.inr ⟨?_, hlt⟩
    rw [selection_chunk_key ps d a ha, selection_chunk_key ps d b hb]
  · apply List.Pairwise.imp_of_mem _ (List.pairwise_lt_range n)
    intro d1 d2 _ _ hlt x hx y hy
    refine Or.inl ?_
    rw [selection_chunk_key ps d1 x hx, selection_chunk_key ps d2 y hy]
    simpa using hlt

/-- Indices never repeat inside a selection built from an enum. -/
theorem selection_fst_ne (l : List LinkInfo) (n : Nat) :
    List.Pairwise (fun p q => p.1 ≠ q.1) (selection l.enum n) := by
  unfold selection
  rw [List.pairwise_flatMap]
  constructor
  · intro d _
    exact (List.Pairwise.sublist (List.filter_sublist l.enum)
      (pairwise_fst_lt_enum l)).imp (fun h => Nat.ne_of_lt h)
  · apply List.Pairwise.imp_of_mem _ (List.pairwise_lt_range n)
    intro d1 d2 _ _ hlt x hx y hy hfst
    have hx1 := (List.mem_filter.1 hx).1
    have hy1 := (List.mem_filter.1 hy).1
    have hxy := enum_fst_inj l x y hx1 hy1 hfst
    have hkx := selection_chunk_key l.enum d1 x hx
    have hky := selection_chunk_key l.enum d2 y hy
    rw [hxy, hky] at hkx
    have : d2 = d1 := Option.some.inj hkx
    omega

theorem mem_of_getElem_some {α : Type _} {l : List α} {i : Nat} {a : α}
    (h : l[i]? = some a) : a ∈ l := by
  obtain ⟨hlt, rfl⟩ := List.getElem?_eq_some.1 h
  exact List.getElem_mem hlt

/-- When all keys are pairwise distinct, each key's filter keeps at most
one element. -/
theorem filter_length_le_one {α : Type _} (key : α → Option Nat) (d : Nat) :
    ∀ l : List α, List.Pairwise (fun a b => key a ≠ key b) l →
      (l.filter (fun a => decide (key a = some d))).length ≤ 1 := by
  intro l
  induction l with
  | nil => intro _; simp
  | cons a as ih =>
    intro hp
    rw [List.filter_cons]
    by_cases hc : key a = some d
    · rw [if_pos (by simpa using hc)]
      have hnil : as.filter (fun b => decide (key b = some d)) = [] := by
        rw [List.filter_eq_nil_iff]
        intro b hb
        simp only [decide_eq_true_eq]
        intro hkb
        exact (List.pairwise_cons.1 hp).1 b hb (by rw [hc, hkb])
      rw [hnil]
      simp
    · rw [if_neg (by simpa using hc)]
      exact ih (List.pairwise_cons.1 hp).2

theorem perm_eq_of_length_le_one {α : Type _} {l1 l2 : List α}
    (h : l1.Perm l2) (hl : l1.length ≤ 1) : l1 = l2 := by
  cases l1 with
  | nil => exact (List.nil_perm.1 h).symm
  | cons a as =>
    cases as with
    | nil => exact (List.perm_singleton.1 h.symm).symm
    | cons b bs => simp at hl

/-- Two permuted info lists with pairwise distinct processing rounds give
the same flattened processing sequence. -/
theorem selection_infos_eq (infos1 infos2 : List LinkInfo) (n : Nat)
    (hperm : infos1.Perm infos2)
    (hpair : List.Pairwise (fun a b => procDist a ≠ procDist b) infos1) :
    (List.range n).flatMap
      (fun d => infos1.filter (fun l => decide (procDist l = some d))) =
    (List.range n).flatMap
      (fun d => infos2.filter (fun l => decide (procDist l = some d))) := by
  have hchunk : ∀ d : Nat,
      infos1.filter (fun l => decide (procDist l = some d)) =
        infos2.filter (fun l => decide (procDist l = some d)) := by
    intro d
    exact perm_eq_of_length_le_one
      (hperm.filter (fun l => decide (procDist l = some d)))
      (filter_length_le_one procDist d infos1 hpair)
  rw [funext hchunk]

/-- Dropping the indices from a filtered enum gives the filter of the
underlying list. -/
theorem filter_enumFrom_map_snd {α : Type _} (q : α → Bool) :
    ∀ (l : List α) (k : Nat),
      ((List.enumFrom k l).filter (fun p => q p.2)).map (fun p => p.2) =
        l.filter q := by
  intro l
  induction l with
  | nil => intro k; rfl
  | cons a as ih =>
    intro k
    rw [List.enumFrom_cons, List.filter_cons, List.filter_cons]
    by_cases hq : q a
    · rw [if_pos (by simpa using hq), if_pos hq, List.map_cons, ih]
    · rw [if_neg (by simpa using hq), if_neg (by simpa using hq), ih]

/-- The info sequence of the selection: indices dropped. -/
theorem selection_map_snd (l : List LinkInfo) (n : Nat) :
    (selection l.enum n).map (fun p => p.2) =
      (List.range n).flatMap
        (fun d => l.filter (fun x => decide (procDist x = some d))) := by
  unfold selection
  rw [List.map_flatMap]
  have hfe : (fun d => ((l.enum.filter
        (fun p => decide (procDist p.2 = some d))).map (fun p => p.2))) =
      (fun d => l.filter (fun x => decide (procDist x = some d))) := by
    funext d
    exact filter_enumFrom_map_snd (fun x => decide (procDist x = some d)) l 0
  rw [hfe]

/-- Splitting a list at a non-repeated element is unique. -/
theorem append_inj_of_not_mem {α : Type _} {a : α} :
    ∀ {s1 : List α} {s2 t1 t2 : List α}, a ∉ s1 → a ∉ s2 →
      s1 ++ a :: t1 = s2 ++ a :: t2 → s1 = s2 ∧ t1 = t2 := by
  intro s1
  induction s1 with
  | nil =>
    intro s2 t1 t2 _ ha2 heq
    cases s2 with
    | nil => simpa using heq
    | cons b bs =>
      simp only [List.nil_append, List.cons_append, List.cons.injEq] at heq
      exact absurd (heq.1 ▸ List.mem_cons_self b bs) ha2
  | cons c cs ih =>
    intro s2 t1 t2 ha1 ha2 heq
    cases s2 with
    | nil =>
      simp only [List.nil_append, List.cons_append, List.cons.injEq] at heq
      exact absurd (heq.1 ▸ List.mem_cons_self c cs) ha1
    | cons b bs =>
      simp only [List.cons_append, List.cons.injEq] at heq
      obtain ⟨rfl, heq2⟩ := heq
      obtain ⟨h1, h2⟩ := ih (fun h => ha1 (List.mem_cons_of_mem _ h))
        (fun h => ha2 (List.mem_cons_of_mem _ h)) heq2
      exact ⟨by rw [h1], h2⟩

theorem applySel_occ (st : LayoutState) (p : Nat × LinkInfo) :
    (applySel st p).occ =
      (match p.2.source, p.2.target with
      | some s, some t => (nextAvailableLevel st.occ s t p.2.dir).2
      | _, _ => st.occ) := by
  unfold applySel
  cases p.2.source <;> cases p.2.target <;> rfl

/-- The occupancy evolution depends only on the info sequence, not on the
indices or the levels list. -/
theorem foldl_applySel_occ :
    ∀ (sel1 sel2 : List (Nat × LinkInfo)) (st1 st2 : LayoutState),
      sel1.map (fun p => p.2) = sel2.map (fun p => p.2) →
      st1.occ = st2.occ →
      (sel1.foldl applySel st1).occ = (sel2.foldl applySel st2).occ := by
  intro sel1
  induction sel1 with
  | nil =>
    intro sel2 st1 st2 hm hocc
    cases sel2 with
    | nil => exact hocc
    | cons q qs => simp at hm
  | cons p ps ih =>
    intro sel2 st1 st2 hm hocc
    cases sel2 with
    | nil => simp at hm
    | cons q qs =>
      simp only [List.map_cons, List.cons.injEq] at hm
      obtain ⟨hpq, hm2⟩ := hm
      rw [List.foldl_cons, List.foldl_cons]
      apply ih qs _ _ hm2
      rw [applySel_occ, applySel_occ, hpq, hocc]

theorem foldl_applySel_levels_ne :
    ∀ (sel : List (Nat × LinkInfo)) (st : LayoutState) (idx : Nat),
      (∀ q ∈ sel, q.1 ≠ idx) →
      ((sel.foldl applySel st).levels)[idx]? = st.levels[idx]? := by
  intro sel
  induction sel with
  | nil => intro st idx _; rfl
  | cons p ps ih =>
    intro st idx hq
    rw [List.foldl_cons,
      ih _ idx (fun q hqm => hq q (List.mem_cons_of_mem _ hqm))]
    unfold applySel
    cases hs : p.2.source with
    | none => rfl
    | some s =>
      cases ht : p.2.target with
      | none => rfl
      | some t =>
        rw [assignLink_levels]
        exact List.getElem?_set_ne (hq p (List.mem_cons_self p ps))

theorem foldl_applySel_levels_len :
    ∀ (sel : List (Nat × LinkInfo)) (st : LayoutState),
      (sel.foldl applySel st).levels.length = st.levels.length := by
  intro sel
  induction sel with
  | nil => intro st; rfl
  | cons p ps ih =>
    intro st
    rw [List.foldl_cons, ih]
    unfold applySel
    cases p.2.source with
    | none => rfl
    | some s =>
      cases p.2.target with
      | none => rfl
      | some t =>
        rw [assignLink_levels, List.length_set]

/-- The level stored for an index is determined by the occupancy reached
just before its own assignment. -/
theorem foldl_applySel_split (pre post : List (Nat × LinkInfo))
    (idx : Nat) (l : LinkInfo) (s t : Nat) (st : LayoutState)
    (hs : l.source = some s) (ht : l.target = some t)
    (hlen : idx < st.levels.length)
    (hpost : ∀ q ∈ post, q.1 ≠ idx) :
    (((pre ++ (idx, l) :: post).foldl applySel st).levels)[idx]? =
      some (some
        ((nextAvailableLevel (pre.foldl applySel st).occ s t l.dir).1)) := by
  rw [List.foldl_append, List.foldl_cons,
    foldl_applySel_levels_ne post _ idx hpost]
  have happ : applySel (pre.foldl applySel st) (idx, l) =
      assignLink (pre.foldl applySel st) idx s t l.dir := by
    unfold applySel
    simp only [hs, ht]
  rw [happ, assignLink_levels]
  apply List.getElem?_set_eq_of_lt
  rw [foldl_applySel_levels_len]
  exact hlen

/-- A successful nodeIdx lookup is a valid node index. -/
theorem nodeIdx_lt (ids : List Nat) (x k : Nat)
    (h : nodeIdx ids x = some k) : k < ids.length := by
  unfold nodeIdx at h
  have hall : ∀ k2 : Nat,
      (ids.enum.foldl (fun acc p => if p.2 = x then some p.1 else acc)
        none) = some k2 → k2 < ids.length := by
    apply foldl_preserve
      (fun o : Option Nat => ∀ k2 : Nat, o = some k2 → k2 < ids.length)
    · intro k2 h2; cases h2
    · intro b a ha hb k2 h2
      by_cases hc : a.2 = x
      · rw [if_pos hc] at h2
        have := List.mem_enum_iff_getElem?.1 ha
        obtain ⟨hlt, _⟩ := List.getElem?_eq_some.1 this
        cases h2
        exact hlt
      · rw [if_neg hc] at h2
        exact hb k2 h2
  exact hall k h

/-- The fields of a fully resolvable non-top link. -/
theorem resolveLink_resolved (ids : List Nat) (l : RawLink) (s t : Nat)
    (h0 : l.start ≠ 0) (hs : nodeIdx ids l.start = some s)
    (ht : nodeIdx ids l.end_ = some t) :
    (resolveLink ids l).source = some s ∧
    (resolveLink ids l).target = some t ∧
    (resolveLink ids l).distance = some (max s t - min s t) ∧
    procDist (resolveLink ids l) = some (max s t - min s t) := by
  unfold resolveLink procDist
  rw [if_neg h0, hs, ht]
  exact ⟨rfl, rfl, rfl, by rw [if_neg h0]⟩

theorem pairwise_of_length_le_one {α : Type _} {R : α → α → Prop}
    {l : List α} (h : l.length ≤ 1) : List.Pairwise R l := by
  cases l with
  | nil => exact List.Pairwise.nil
  | cons a as =>
    cases as with
    | nil => simp
    | cons b bs => simp at h

/-- With pairwise distinct processing rounds, the flattened processing
sequence never repeats an info. -/
theorem selection_infos_nodup (infos : List LinkInfo) (n : Nat)
    (hpair : List.Pairwise (fun a b => procDist a ≠ procDist b) infos) :
    List.Pairwise (fun a b => a ≠ b)
      ((List.range n).flatMap
        (fun d => infos.filter (fun l => decide (procDist l = some d)))) := by
  rw [List.pairwise_flatMap]
  constructor
  · intro d _
    exact pairwise_of_length_le_one
      (filter_length_le_one procDist d infos hpair)
  · apply List.Pairwise.imp_of_mem _ (List.pairwise_lt_range n)
    intro d1 d2 _ _ hlt x hx y hy hxy
    have hkx : procDist x = some d1 := by
      simpa using (List.mem_filter.1 hx).2
    have hky : procDist y = some d2 := by
      simpa using (List.mem_filter.1 hy).2
    rw [hxy, hky] at hkx
    have : d2 = d1 := Option.some.inj hkx
    omega

/-- Distinct span distances give distinct processing rounds. -/
theorem pairwise_procDist_ne (nodes : List Nat) (ls : List RawLink)
    (hnontop : ∀ l ∈ ls, l.start ≠ 0)
    (hres : ∀ l ∈ ls, (nodeIdx nodes l.start).isSome ∧
      (nodeIdx nodes l.end_).isSome)
    (hnodup : (ls.map (fun l => (resolveLink nodes l).distance)).Nodup) :
    List.Pairwise (fun a b => procDist a ≠ procDist b)
      (ls.map (resolveLink nodes)) := by
  have key : ∀ l ∈ ls,
      procDist (resolveLink nodes l) = (resolveLink nodes l).distance := by
    intro l hl
    obtain ⟨s, hs⟩ := Option.isSome_iff_exists.1 (hres l hl).1
    obtain ⟨t, ht⟩ := Option.isSome_iff_exists.1 (hres l hl).2
    obtain ⟨_, _, hd, hp⟩ :=
      resolveLink_resolved nodes l s t (hnontop l hl) hs ht
    rw [hp, hd]
  rw [List.pairwise_map]
  have hnd : List.Pairwise
      (fun a b => (resolveLink nodes a).distance ≠
        (resolveLink nodes b).distance) ls := List.pairwise_map.1 hnodup
  apply List.Pairwise.imp_of_mem _ hnd
  intro a b ha hb hne hcontra
  exact hne (by rw [← key a ha, ← key b hb, hcontra])

/-- C4: the dist loop processes non-top-level links in non-decreasing
order of span distance with ties broken by input order (prepareGraph is
the fold of single assignments over the sorted selection, and the
selection is sorted for that order); and permuting links with pairwise
distinct span distances leaves every link's assigned level unchanged. -/
theorem C4_processing_order :
    (∀ g : Graph,
      prepareGraph g = ⟨g.links.map (resolveLink g.nodes),
        ((selection (g.links.map (resolveLink g.nodes)).enum
            g.nodes.length).foldl applySel (initState g)).occ,
        ((selection (g.links.map (resolveLink g.nodes)).enum
            g.nodes.length).foldl applySel (initState g)).maxTop,
        ((selection (g.links.map (resolveLink g.nodes)).enum
            g.nodes.length).foldl applySel (initState g)).maxBot,
        ((selection (g.links.map (resolveLink g.nodes)).enum
            g.nodes.length).foldl applySel (initState g)).levels⟩) ∧
    (∀ (infos : List LinkInfo) (n : Nat),
      List.Pairwise selBefore (selection infos.enum n)) ∧
    (∀ (nodes : List Nat) (ls1 ls2 : List RawLink),
      ls1.Perm ls2 →
      (∀ l ∈ ls1, l.start ≠ 0) →
      (∀ l ∈ ls1, (nodeIdx nodes l.start).isSome ∧
        (nodeIdx nodes l.end_).isSome) →
      (ls1.map (fun l => (resolveLink nodes l).distance)).Nodup →
      ∀ (i j : Nat) (l : RawLink), ls1[i]? = some l → ls2[j]? = some l →
        (prepareGraph ⟨nodes, ls1⟩).levels[i]? =
          (prepareGraph ⟨nodes, ls2⟩).levels[j]?) := by
  refine ⟨?_, ?_, ?_⟩
  · intro g
    rw [prepareGraph_def, finalState_selection]
  · intro infos n
    exact selection_pairwise infos.enum n (pairwise_fst_lt_enum infos)
  · intro nodes ls1 ls2 hperm hnontop hres hnodup i j l h1 h2
    have hmem1 : l ∈ ls1 := mem_of_getElem_some h1
    obtain ⟨s, hs⟩ := Option.isSome_iff_exists.1 (hres l hmem1).1
    obtain ⟨t, ht⟩ := Option.isSome_iff_exists.1 (hres l hmem1).2
    obtain ⟨hsrc, htgt, hdist, hpd⟩ :=
      resolveLink_resolved nodes l s t (hnontop l hmem1) hs ht
    have hd0n : max s t - min s t < nodes.length := by
      rcases Nat.le_total s t with hle | hle
      · rw [Nat.max_eq_right hle, Nat.min_eq_left hle]
        have := nodeIdx_lt nodes l.end_ t ht
        omega
      · rw [Nat.max_eq_left hle, Nat.min_eq_right hle]
        have := nodeIdx_lt nodes l.start s hs
        omega
    have hinfos1 : (ls1.map (resolveLink nodes))[i]? =
        some (resolveLink nodes l) := by
      rw [List.getElem?_map, h1]
      rfl
    have hinfos2 : (ls2.map (resolveLink nodes))[j]? =
        some (resolveLink nodes l) := by
      rw [List.getElem?_map, h2]
      rfl
    have hmemsel1 : (i, resolveLink nodes l) ∈
        selection (ls1.map (resolveLink nodes)).enum nodes.length := by
      unfold selection
      rw [List.mem_flatMap]
      refine ⟨max s t - min s t, List.mem_range.2 hd0n, ?_⟩
      rw [List.mem_filter]
      exact ⟨List.mem_enum_iff_getElem?.2 hinfos1, by simpa using hpd⟩
    have hmemsel2 : (j, resolveLink nodes l) ∈
        selection (ls2.map (resolveLink nodes)).enum nodes.length := by
      unfold selection
      rw [List.mem_flatMap]
      refine ⟨max s t - min s t, List.mem_range.2 hd0n, ?_⟩
      rw [List.mem_filter]
      exact ⟨List.mem_enum_iff_getElem?.2 hinfos2, by simpa using hpd⟩
    obtain ⟨pre1, post1, hsplit1⟩ := List.append_of_mem hmemsel1
    obtain ⟨pre2, post2, hsplit2⟩ := List.append_of_mem hmemsel2
    have hpair1 := selection_fst_ne (ls1.map (resolveLink nodes)) nodes.length
    rw [hsplit1] at hpair1
    have hpost1 : ∀ q ∈ post1, q.1 ≠ i := by
      intro q hq
      have hc := (List.pairwise_cons.1 (List.pairwise_append.1 hpair1).2.1).1 q hq
      exact fun hh => hc hh.symm
    have hpair2 := selection_fst_ne (ls2.map (resolveLink nodes)) nodes.length
    rw [hsplit2] at hpair2
    have hpost2 : ∀ q ∈ post2, q.1 ≠ j := by
      intro q hq
      have hc := (List.pairwise_cons.1 (List.pairwise_append.1 hpair2).2.1).1 q hq
      exact fun hh => hc hh.symm
    obtain ⟨hi_lt, _⟩ := List.getElem?_eq_some.1 h1
    obtain ⟨hj_lt, _⟩ := List.getElem?_eq_some.1 h2
    have hilen : i < (initState ⟨nodes, ls1⟩).levels.length := by
      show i < (ls1.map (fun _ => (none : Option Int))).length
      rw [List.length_map]
      exact hi_lt
    have hjlen : j < (initState ⟨nodes, ls2⟩).levels.length := by
      show j < (ls2.map (fun _ => (none : Option Int))).length
      rw [List.length_map]
      exact hj_lt
    have hlev1 : (prepareGraph ⟨nodes, ls1⟩).levels[i]? =
        some (some ((nextAvailableLevel
          (pre1.foldl applySel (initState ⟨nodes, ls1⟩)).occ s t
          (resolveLink nodes l).dir).1)) := by
      rw [prepareGraph_def]
      show (finalState ⟨nodes, ls1⟩).levels[i]? = _
      rw [finalState_selection]
      show (((selection (ls1.map (resolveLink nodes)).enum
        nodes.length).foldl applySel (initState ⟨nodes, ls1⟩)).levels)[i]? = _
      rw [hsplit1]
      exact foldl_applySel_split pre1 post1 i (resolveLink nodes l) s t _
        hsrc htgt hilen hpost1
    have hlev2 : (prepareGraph ⟨nodes, ls2⟩).levels[j]? =
        some (some ((nextAvailableLevel
          (pre2.foldl applySel (initState ⟨nodes, ls2⟩)).occ s t
          (resolveLink nodes l).dir).1)) := by
      rw [prepareGraph_def]
      show (finalState ⟨nodes, ls2⟩).levels[j]? = _
      rw [finalState_selection]
      show (((selection (ls2.map (resolveLink nodes)).enum
        nodes.length).foldl applySel (initState ⟨nodes, ls2⟩)).levels)[j]? = _
      rw [hsplit2]
      exact foldl_applySel_split pre2 post2 j (resolveLink nodes l) s t _
        hsrc htgt hjlen hpost2
    have hpairinfo : List.Pairwise (fun a b => procDist a ≠ procDist b)
        (ls1.map (resolveLink nodes)) :=
      pairwise_procDist_ne nodes ls1 hnontop hres hnodup
    have hS : (selection (ls1.map (resolveLink nodes)).enum
          nodes.length).map (fun p => p.2) =
        (selection (ls2.map (resolveLink nodes)).enum
          nodes.length).map (fun p => p.2) := by
      rw [selection_map_snd, selection_map_snd]
      exact selection_infos_eq _ _ nodes.length
        (hperm.map (resolveLink nodes)) hpairinfo
    have e1 : (selection (ls1.map (resolveLink nodes)).enum
          nodes.length).map (fun p => p.2) =
        pre1.map (fun p => p.2) ++ resolveLink nodes l ::
          post1.map (fun p => p.2) := by
      rw [hsplit1, List.map_append, List.map_cons]
    have e2 : (selection (ls2.map (resolveLink nodes)).enum
          nodes.length).map (fun p => p.2) =
        pre2.map (fun p => p.2) ++ resolveLink nodes l ::
          post2.map (fun p => p.2) := by
      rw [hsplit2, List.map_append, List.map_cons]
    have hnodupS : List.Pairwise (fun a b => a ≠ b)
        ((selection (ls1.map (resolveLink nodes)).enum
          nodes.length).map (fun p => p.2)) := by
      rw [selection_map_snd]
      exact selection_infos_nodup _ nodes.length hpairinfo
    have hgetm : ∀ pm postm : List LinkInfo,
        List.Pairwise (fun a b => a ≠ b)
          (pm ++ resolveLink nodes l :: postm) →
        resolveLink nodes l ∉ pm := by
      intro pm postm hp hmemp
      exact (List.pairwise_append.1 hp).2.2 _ hmemp _
        (List.mem_cons_self _ _) rfl
    have hnot1 : resolveLink nodes l ∉ pre1.map (fun p => p.2) := by
      apply hgetm _ (post1.map (fun p => p.2))
      rw [← e1]
      exact hnodupS
    have hnot2 : resolveLink nodes l ∉ pre2.map (fun p => p.2) := by
      apply hgetm _ (post2.map (fun p => p.2))
      rw [← e2, ← hS]
      exact hnodupS
    have heqmaps : pre1.map (fun p => p.2) ++ resolveLink nodes l ::
          post1.map (fun p => p.2) =
        pre2.map (fun p => p.2) ++ resolveLink nodes l ::
          post2.map (fun p => p.2) := by
      rw [← e1, ← e2]
      exact hS
    obtain ⟨hpre_eq, _⟩ := append_inj_of_not_mem hnot1 hnot2 heqmaps
    have hocc_eq : (pre1.foldl applySel (initState ⟨nodes, ls1⟩)).occ =
        (pre2.foldl applySel (initState ⟨nodes, ls2⟩)).occ :=
      foldl_applySel_occ pre1 pre2 _ _ hpre_eq rfl
    rw [hlev1, hlev2, hocc_eq]

/-- Witness for C4: swapping two links with distinct span distances leaves
each link's level unchanged. -/
theorem C4_witness :
    (prepareGraph ⟨[1, 2, 3],
      [⟨1, 3, "ARG1", "NEQ"⟩, ⟨1, 2, "ARG2", "NEQ"⟩]⟩).levels[0]? =
    (prepareGraph ⟨[1, 2, 3],
      [⟨1, 2, "ARG2", "NEQ"⟩, ⟨1, 3, "ARG1", "NEQ"⟩]⟩).levels[1]? :=
  C4_processing_order.2.2 [1, 2, 3]
    [⟨1, 3, "ARG1", "NEQ"⟩, ⟨1, 2, "ARG2", "NEQ"⟩]
    [⟨1, 2, "ARG2", "NEQ"⟩, ⟨1, 3, "ARG1", "NEQ"⟩]
    (List.Perm.swap _ _ _) (by decide) (by decide) (by decide)
    0 1 ⟨1, 3, "ARG1", "NEQ"⟩ (by rfl) (by rfl)
